import Mathlib

/-!
Verification development for the solid-number-format repository.

Strings are modelled as lists of characters.  JavaScript string and array
operations that the sources rely on (substring clamping, out-of-range
indexing, relative fill indices, sparse array writes) are modelled by
explicit helper functions.  Separators and the pattern character are
modelled as single characters, which is the shape the configuration
surface documents for them.
-/

namespace SolidNumberFormat

abbrev Str := List Char

/-- JS character indexing: the character at index i, none when out of range. -/
def jsCharAt (s : Str) (i : Int) : Option Char :=
  if 0 ≤ i then s.get? i.toNat else none

/-- JS substring: both indices are clamped to the string bounds and swapped
when out of order. -/
def jsSubstring (s : Str) (a b : Int) : Str :=
  let n : Int := s.length
  let a' := (max 0 (min a n)).toNat
  let b' := (max 0 (min b n)).toNat
  (s.take (max a' b')).drop (min a' b')

/-- JS one-argument substring: from the clamped index to the end. -/
def jsSubstringFrom (s : Str) (a : Int) : Str :=
  jsSubstring s a s.length

/-- JS indexOf for a single character: the first index holding it, -1 when absent. -/
def jsIndexOfChar (s : Str) (c : Char) : Int :=
  match s.findIdx? (fun x => x == c) with
  | some k => (k : Int)
  | none => -1

/-- JS Array.prototype.fill with value v on the index range [start, stop):
negative indices count from the end, and both are clamped. -/
def jsFill (l : List Bool) (v : Bool) (start stop : Int) : List Bool :=
  let n : Int := l.length
  let s := if start < 0 then max (n + start) 0 else min start n
  let e := if stop < 0 then max (n + stop) 0 else min stop n
  (List.range l.length).map (fun (i : Nat) => if s ≤ (i : Int) ∧ (i : Int) < e then v else l.getD i false)

/-- JS array element assignment: writing past the end extends the array with
holes, writing at a negative index leaves the array itself unchanged. -/
def jsArraySet (l : List (Option Bool)) (i : Int) (v : Bool) : List (Option Bool) :=
  if i < 0 then l
  else if i.toNat < l.length then l.set i.toNat (some v)
  else l ++ List.replicate (i.toNat - l.length) none ++ [some v]

/-- A selection or change range in caret index space. -/
structure NumRange where
  start : Int
  stop : Int
deriving DecidableEq, Repr

/-- The change metadata handed to removeFormatting: which slice of the previous
value was replaced and which slice of the new input replaces it. -/
structure ChangeMeta where
  fromR : NumRange
  toR : NumRange
  lastValue : Str
deriving DecidableEq, Repr

/-- Modelled from the spec: the shared utils module is absent from the sources;
the default change-meta treats the whole value as newly inserted in place of an
empty previous value (spec section 3, ChangeMeta lifecycle). -/
def getDefaultChangeMeta (value : Str) : ChangeMeta :=
  { fromR := ⟨0, 0⟩, toR := ⟨0, (value.length : Int)⟩, lastValue := [] }

/-- Modelled from the spec: the utils test that a string holds a numeric
character; a string counts as numeric when some of its characters is a decimal
digit.  Every caller in the sources passes a single character except the
"only a number matching the prefix or suffix was added" guard of the numeric
removeFormatting, which passes the whole value. -/
def charIsNumber (s : Str) : Bool := s.any Char.isDigit

/-- Thousand separator configuration: a boolean, an explicit string, or absent. -/
inductive ThousandSeparatorProp
  | bval (b : Bool)
  | sval (s : Str)
  | unset
deriving DecidableEq, Repr

/-- Grouping style of the integer section. -/
inductive ThousandsGroupStyle
  | thousand
  | lakh
  | wan
  | nogroup
deriving DecidableEq, Repr

/-- Configuration of the numeric format (src/src/numeric_format.tsx).  The
decimal separator and the allowed decimal separators are modelled as single
characters; absent string props resolve to the empty string exactly as the
sources resolve them with their defaults. -/
structure NumericProps where
  decimalScale : Option Nat := none
  fixedDecimalScale : Bool := false
  prefixStr : Str := []
  suffixStr : Str := []
  allowNegative : Option Bool := none
  thousandSeparator : ThousandSeparatorProp := .unset
  decimalSeparator : Option Char := none
  allowedDecimalSeparators : Option (List Char) := none
  thousandsGroupStyle : Option ThousandsGroupStyle := none
deriving DecidableEq, Repr

/-- The three resolved separators. -/
structure Separators where
  decimalSeparator : Char
  thousandSeparator : Str
  allowedDecimalSeparators : List Char
deriving DecidableEq, Repr

/-- getSeparators of src/src/numeric_format.tsx (lines 91-112). -/
def getSeparators (props : NumericProps) : Separators :=
  let decimalSeparator := props.decimalSeparator.getD '.'
  { decimalSeparator := decimalSeparator
    thousandSeparator :=
      match props.thousandSeparator with
      | .bval true => [',']
      | .sval s => s
      | _ => []
    allowedDecimalSeparators := props.allowedDecimalSeparators.getD [decimalSeparator, '.'] }

/-- Result of splitting a value at the decimal point. -/
structure SplitDecimalResult where
  beforeDecimal : Str
  afterDecimal : Str
  addNegation : Bool
deriving DecidableEq, Repr

/-- Modelled from the spec: the utils splitDecimal — the value is split into
the sections before and after the decimal point, and a leading negation sign is
detected and preserved only when negation is allowed (spec section 4.2). -/
def splitDecimal (numStr : Str) (allowNegative : Bool) : SplitDecimalResult :=
  if jsCharAt numStr 0 = some '-' then
    let s := numStr.drop 1
    ⟨s.takeWhile (fun c => c ≠ '.'), (s.dropWhile (fun c => c ≠ '.')).drop 1, allowNegative⟩
  else
    ⟨numStr.takeWhile (fun c => c ≠ '.'), (numStr.dropWhile (fun c => c ≠ '.')).drop 1, false⟩

/-- Modelled from the spec: the utils limitToScale — the decimal section is cut
to at most scale digits and zero-padded up to scale when fixedDecimalScale is
set (spec section 4.2, decimal-scale truncation and padding).  The carry of a
rounded prop value is applied elsewhere and is not needed by the per-edit
pipeline modelled here. -/
def limitToScale (numStr : Str) (scale : Nat) (fixed : Bool) : Str :=
  if fixed then numStr.take scale ++ List.replicate (scale - numStr.length) '0'
  else numStr.take scale

/-- Chunk cutter running on fuel so that it reduces structurally; the fuel is
always at least the list length at every call. -/
def chunksLeftGo (n : Nat) : Nat → Str → List Str
  | _, [] => []
  | 0, l => [l]
  | fuel + 1, l =>
    if n = 0 then [l]
    else l.take n :: chunksLeftGo n fuel (l.drop n)

/-- Chunks of size n cut from the left, the degenerate size 0 keeping the list whole. -/
def chunksLeft (n : Nat) (l : Str) : List Str :=
  chunksLeftGo n l.length l

/-- Groups of the integer digits, listed from the left, grouped from the right
per the grouping style (spec section 4.2): thousand means groups of 3, lakh a
rightmost group of 3 then groups of 2, wan groups of 4, and no grouping keeps
the digits whole. -/
def groupChunks (style : ThousandsGroupStyle) (s : Str) : List Str :=
  match style with
  | .thousand => ((chunksLeft 3 s.reverse).map List.reverse).reverse
  | .wan => ((chunksLeft 4 s.reverse).map List.reverse).reverse
  | .lakh =>
    ((chunksLeft 2 (s.reverse.drop 3)).map List.reverse).reverse ++
      (if s.reverse.take 3 = [] then [] else [(s.reverse.take 3).reverse])
  | .nogroup => [s]

/-- Joins parts with the separator between consecutive parts. -/
def joinSep (sep : Str) : List Str → Str
  | [] => []
  | [c] => c
  | c :: rest => c ++ sep ++ joinSep sep rest

/-- Modelled from the spec: the utils applyThousandSeparator — thousands
grouping of the integer section per the configured grouping style
(spec section 4.2). -/
def applyThousandSeparator (s : Str) (sep : Str) (style : ThousandsGroupStyle) : Str :=
  joinSep sep (groupChunks style s)

/-- The decision of src/src/numeric_format.tsx lines 59-61: the decimal
separator is kept when the scale is not zero and the value holds a decimal
point, or when a non-zero scale is fixed. -/
def numericHasDecimalSeparator (numStr : Str) (props : NumericProps) : Bool :=
  ((props.decimalScale != some 0) && numStr.contains '.') ||
    (match props.decimalScale with
     | some n => decide (n ≠ 0) && props.fixedDecimalScale
     | none => false)

/-- format of src/src/numeric_format.tsx (lines 31-89). -/
def numericFormatFn (numStr : Str) (props : NumericProps) : Str :=
  if numStr = [] ∨ numStr = ['-'] then numStr
  else
    let seps := getSeparators props
    let hasDecimalSeparator := numericHasDecimalSeparator numStr props
    let sd := splitDecimal numStr (props.allowNegative.getD true)
    let afterDecimal :=
      match props.decimalScale with
      | some n => limitToScale sd.afterDecimal n props.fixedDecimalScale
      | none => sd.afterDecimal
    let beforeDecimal :=
      if seps.thousandSeparator ≠ [] then
        applyThousandSeparator sd.beforeDecimal seps.thousandSeparator
          (props.thousandsGroupStyle.getD .thousand)
      else sd.beforeDecimal
    let beforeDecimal := if props.prefixStr ≠ [] then props.prefixStr ++ beforeDecimal else beforeDecimal
    let afterDecimal := if props.suffixStr ≠ [] then afterDecimal ++ props.suffixStr else afterDecimal
    let beforeDecimal := if sd.addNegation then '-' :: beforeDecimal else beforeDecimal
    beforeDecimal ++ (if hasDecimalSeparator then [seps.decimalSeparator] else []) ++ afterDecimal

/-- A character a JS dot in a regex does not cross: a line terminator. -/
def isLineTerminator (c : Char) : Bool :=
  c == '\n' || c == '\r' || c == '\u2028' || c == '\u2029'

/-- Whether two negation signs occur with no line terminator between them, the
test performed by the double-negation regex of handleNegation.  The flag keeps
track of a negation sign already seen on the current line. -/
def twoDashesSameLine : Str → Bool → Bool
  | [], _ => false
  | c :: rest, seen =>
    if isLineTerminator c then twoDashesSameLine rest false
    else if c = '-' then (if seen then true else twoDashesSameLine rest true)
    else twoDashesSameLine rest seen

/-- handleNegation of src/src/numeric_format.tsx (lines 114-132): every
negation sign is removed and a single one is reattached in front when exactly
one line of the value held exactly one sign and negation is allowed. -/
def handleNegation (value : Str) (allowNegative : Option Bool) : Str :=
  let hasNegation := value.contains '-'
  let removeNegation := twoDashesSameLine value false
  let stripped := value.filter (fun c => c ≠ '-')
  if hasNegation && !removeNegation && (allowNegative == some true) then '-' :: stripped
  else stripped

/-- The number regex of src/src/numeric_format.tsx (lines 134-136) applied
globally and joined (line 281): a leading negation sign, every digit and every
decimal-separator occurrence are kept, everything else is dropped. -/
def numberRegexExtract (value : Str) (dsep : Char) : Str :=
  if value.head? = some '-' then
    '-' :: (value.drop 1).filter (fun c => c.isDigit || c == dsep)
  else value.filter (fun c => c.isDigit || c == dsep)

/-- Helper of the first-separator collapse: the flag records whether the first
decimal-separator occurrence has already been passed. -/
def collapseFirstSepGo (dsep : Char) : Bool → Str → Str
  | _, [] => []
  | seen, c :: rest =>
    if c = dsep then
      if seen then collapseFirstSepGo dsep seen rest
      else '.' :: collapseFirstSepGo dsep true rest
    else c :: collapseFirstSepGo dsep seen rest

/-- Lines 283-290 of src/src/numeric_format.tsx: every decimal-separator
occurrence is dropped except the first, which becomes the canonical point. -/
def collapseFirstSep (dsep : Char) (s : Str) : Str :=
  collapseFirstSepGo dsep false s

/-- Result of the stripNegation closure. -/
structure StripNegationResult where
  value : Str
  start : Int
  stop : Int
  hasNegation : Bool
deriving DecidableEq, Repr

/-- The stripNegation closure of the numeric removeFormatting
(src/src/numeric_format.tsx lines 189-222). -/
def stripNegation (prefixStr suffixStr : Str) (value : Str) (start stop : Int) :
    StripNegationResult :=
  let flags : Bool × Nat :=
    if prefixStr.head? = some '-' then (false, 0)
    else if value.take 2 = ['-', '-'] then (false, 2)
    else if suffixStr.head? = some '-' ∧ value.length = suffixStr.length then (false, 0)
    else if value.head? = some '-' then (true, 1)
    else (false, 0)
  ⟨value.drop flags.2, start - flags.2, stop - flags.2, flags.1⟩

/-- Truthiness of parseFloat on the decimal section tested by the deletion
collapse; that section only ever holds digits at this point, so it is truthy
exactly when some digit is non-zero. -/
def afterTruthy (s : Str) : Bool := s.any (fun c => c.isDigit && c != '0')

/-- The membership test of line 180: whether the character (undefined when out
of range) is one of the allowed decimal separators. -/
def isAllowedSepChar (allowed : List Char) (oc : Option Char) : Bool :=
  match oc with
  | some c => allowed.contains c
  | none => false

/-- Lines 177-187 of the numeric removeFormatting: a single inserted character
out of the allowed decimal separators is replaced in place with the configured
decimal separator, or deleted when the decimal scale is zero. -/
def rfSepCanonValue (value : Str) (changeMeta : ChangeMeta) (props : NumericProps) : Str :=
  let seps := getSeparators props
  if changeMeta.toR.stop - changeMeta.toR.start = 1 ∧
      isAllowedSepChar seps.allowedDecimalSeparators
        (jsCharAt value changeMeta.toR.start) = true then
    (jsSubstring value 0 changeMeta.toR.start ++
      (if props.decimalScale = some 0 then [] else [seps.decimalSeparator])) ++
      jsSubstring value (changeMeta.toR.start + 1) value.length
  else value

/-- The value and updated to-range after the decoration handling of the
numeric removeFormatting. -/
structure RfStripped where
  value : Str
  toStart : Int
  toStop : Int
  hasNegation : Bool
deriving DecidableEq, Repr

/-- Lines 224-275 of the numeric removeFormatting: negation stripping of the
value and the last value, the reset of a decoration-only edit to the last
value, then prefix and suffix removal with the to-range indices maintained. -/
def rfStrip (value0 : Str) (changeMeta : ChangeMeta) (props : NumericProps) : RfStripped :=
  let prefixStr := props.prefixStr
  let suffixStr := props.suffixStr
  let toMeta := stripNegation prefixStr suffixStr value0 changeMeta.toR.start changeMeta.toR.stop
  let hasNegation := toMeta.hasNegation
  let value := toMeta.value
  let toStart := toMeta.start
  let toStop := toMeta.stop
  let fromMeta :=
    stripNegation prefixStr suffixStr changeMeta.lastValue changeMeta.fromR.start
      changeMeta.fromR.stop
  let fromStart := fromMeta.start
  let fromEnd := fromMeta.stop
  let lastValue := fromMeta.value
  -- an edit confined to the decoration resets to the last value (lines 234-244)
  let updatedSuffixPart := jsSubstring value toStart toStop
  let value :=
    if value ≠ [] ∧ lastValue ≠ [] ∧
        (fromStart > (lastValue.length : Int) - suffixStr.length ∨
          fromEnd < (prefixStr.length : Int)) ∧
        ¬(updatedSuffixPart ≠ [] ∧ updatedSuffixPart.isPrefixOf suffixStr) then
      lastValue
    else value
  -- prefix removal (lines 246-258)
  let startIndex : Int :=
    if prefixStr.isPrefixOf value then (prefixStr.length : Int)
    else if toStart < (prefixStr.length : Int) then toStart
    else 0
  let value := jsSubstringFrom value startIndex
  let toStop := toStop - startIndex
  -- suffix removal (lines 260-275)
  let suffixStartIndex : Int := (value.length : Int) - suffixStr.length
  let endIndex : Int :=
    if suffixStr.isSuffixOf value then suffixStartIndex
    else if toStop > suffixStartIndex then toStop
    else if toStop > (value.length : Int) - suffixStr.length then toStop
    else (value.length : Int)
  ⟨jsSubstring value 0 endIndex, toStart, toStop, hasNegation⟩

/-- Lines 278-290 of the numeric removeFormatting: negation reattachment,
non-numeric character removal and the first-separator collapse. -/
def rfNumericCore (st : RfStripped) (props : NumericProps) : Str :=
  let seps := getSeparators props
  let value := handleNegation (if st.hasNegation then '-' :: st.value else st.value)
    props.allowNegative
  let value := numberRegexExtract value seps.decimalSeparator
  collapseFirstSep seps.decimalSeparator value

/-- removeFormatting of src/src/numeric_format.tsx (lines 151-307), assembled
from its stages in source order. -/
def numericRemoveFormatting (value : Str) (changeMeta : ChangeMeta) (props : NumericProps) : Str :=
  let seps := getSeparators props
  let isBeforeDecimalSeparator := jsCharAt value changeMeta.toR.stop = some seps.decimalSeparator
  -- a number typed over the empty input that matches the prefix or suffix is echoed (lines 169-175)
  if charIsNumber value ∧ (value = props.prefixStr ∨ value = props.suffixStr) ∧
      changeMeta.lastValue = [] then
    value
  else
    let st := rfStrip (rfSepCanonValue value changeMeta props) changeMeta props
    let value7 := rfNumericCore st props
    -- deletion collapse to the empty or sign-only value (lines 292-304)
    let sd := splitDecimal value7 (props.allowNegative.getD true)
    if st.toStop - st.toStart < changeMeta.fromR.stop - changeMeta.fromR.start ∧
        sd.beforeDecimal = [] ∧ isBeforeDecimalSeparator ∧ afterTruthy sd.afterDecimal = false then
      if sd.addNegation then ['-'] else []
    else value7

/-- getCaretBoundary of src/src/numeric_format.tsx (lines 309-330). -/
def numericGetCaretBoundary (formattedValue : Str) (props : NumericProps) : List Bool :=
  let boundaryAry := List.replicate (formattedValue.length + 1) true
  let hasNegation := jsCharAt formattedValue 0 = some '-'
  let boundaryAry :=
    jsFill boundaryAry false 0 ((props.prefixStr.length : Int) + if hasNegation then 1 else 0)
  jsFill boundaryAry false ((formattedValue.length : Int) - props.suffixStr.length + 1)
    ((formattedValue.length : Int) + 1)

/-- validateAndUpdateProps of src/src/numeric_format.tsx (lines 332-362); the
thrown configuration error is modelled as an error result.  The
prefix-negation clash path only logs and flips allowNegative, it never
throws. -/
def validateAndUpdateProps (props : NumericProps) : Except Unit NumericProps :=
  let seps := getSeparators props
  let allowNegative := props.allowNegative.getD true
  if seps.thousandSeparator = [seps.decimalSeparator] then .error ()
  else if props.prefixStr.head? = some '-' ∧ allowNegative then
    .ok { props with allowNegative := some false }
  else .ok { props with allowNegative := some allowNegative }

/-- Mask configuration of the pattern format: absent, a string, or a per-slot
array of strings. -/
inductive MaskProp
  | unset
  | sval (s : Str)
  | arr (l : List Str)
deriving DecidableEq, Repr

/-- Modelled from the spec: the utils getMaskAtIndex — the mask placeholder for
the i-th slot: the mask string itself, the i-th entry of a per-slot array (a
space when the entry is missing or empty), or a space when no mask is
configured (spec section 6, mask). -/
def getMaskAtIndex (mask : MaskProp) (index : Nat) : Str :=
  match mask with
  | .unset => [' ']
  | .sval s => s
  | .arr l =>
    match l.get? index with
    | some e => if e = [] then [' '] else e
    | none => [' ']

/-- Configuration of the pattern format (src/src/pattern_format.tsx).  The
pattern character is modelled as a single character, absent resolving to the
default hash. -/
structure PatternProps where
  formatStr : Str := []
  patternChar : Option Char := none
  mask : MaskProp := .unset
  allowEmptyFormatting : Bool := false
deriving DecidableEq, Repr

/-- The slot-filling loop of the pattern format (src/src/pattern_format.tsx
lines 23-31): pattern-character positions take the next character of the
value, or the mask placeholder once the value is exhausted; other positions
keep the format character. -/
def patternFillSlots (pc : Char) (numStr : Str) (mask : MaskProp) : Str → Nat → Str
  | [], _ => []
  | c :: rest, hashCount =>
    if c = pc then
      (match numStr.get? hashCount with
       | some d => [d]
       | none => getMaskAtIndex mask hashCount) ++ patternFillSlots pc numStr mask rest (hashCount + 1)
    else c :: patternFillSlots pc numStr mask rest hashCount

/-- format of src/src/pattern_format.tsx (lines 14-32). -/
def patternFormatFn (numStr : Str) (props : PatternProps) : Str :=
  let pc := props.patternChar.getD '#'
  if numStr = [] ∧ props.allowEmptyFormatting = false then []
  else patternFillSlots pc numStr props.mask props.formatStr 0

/-- The removeFormatChar closure of the pattern removeFormatting
(src/src/pattern_format.tsx lines 44-53): characters that are digits sitting
on a pattern-character slot are kept, everything else is dropped.  The
position argument tracks startIndex + i of the loop. -/
def removeFormatChar (fmt : Str) (pc : Char) : Str → Int → Str
  | [], _ => []
  | c :: rest, pos =>
    if jsCharAt fmt pos = some pc ∧ c.isDigit = true then
      c :: removeFormatChar fmt pc rest (pos + 1)
    else removeFormatChar fmt pc rest (pos + 1)

/-- The whole-paste scan of the pattern removeFormatting
(src/src/pattern_format.tsx lines 71-83): digits on pattern slots are
collected; a non-slot position whose character differs from the format
character is a pattern mismatch, reported as none. -/
def pastedSlots (pc : Char) : Str → Str → Option Str
  | _, [] => some []
  | fc :: frest, c :: rest =>
    if fc = pc then
      match pastedSlots pc frest rest with
      | some tail => some (if c.isDigit then c :: tail else tail)
      | none => none
    else if c ≠ fc then none
    else pastedSlots pc frest rest
  | [], _ :: _ => none

/-- removeFormatting of src/src/pattern_format.tsx (lines 34-109). -/
def patternRemoveFormatting (value : Str) (changeMeta : ChangeMeta) (props : PatternProps) : Str :=
  let pc := props.patternChar.getD '#'
  let fmt := props.formatStr
  -- a format with no digit of its own: plain digit extraction (lines 57-60)
  if fmt.any Char.isDigit = false then value.filter Char.isDigit
  -- a whole-value paste matched against the pattern (lines 62-84)
  else if (changeMeta.lastValue = [] ∨
        changeMeta.fromR.stop - changeMeta.fromR.start = (changeMeta.lastValue.length : Int)) ∧
      value.length = fmt.length then
    match pastedSlots pc fmt value with
    | some s => s
    | none => value.filter Char.isDigit
  -- partial change: unchanged sections from the last value, typed middle from the input (lines 86-108)
  else
    let firstSection := jsSubstring changeMeta.lastValue 0 changeMeta.fromR.start
    let middleSection := jsSubstring value changeMeta.toR.start changeMeta.toR.stop
    let lastSection := jsSubstringFrom changeMeta.lastValue changeMeta.fromR.stop
    removeFormatChar fmt pc firstSection 0 ++ middleSection.filter Char.isDigit ++
      removeFormatChar fmt pc lastSection changeMeta.fromR.stop

/-- The mask placeholder stored by the first pass of the pattern
getCaretBoundary for an index (src/src/pattern_format.tsx lines 124-135):
defined exactly on pattern-character positions, where the slot ordinal is the
number of pattern characters strictly before the index. -/
def patternMaskAt (fmt : Str) (pc : Char) (mask : MaskProp) (i : Nat) : Option Str :=
  if fmt.get? i = some pc then some (getMaskAtIndex mask ((fmt.take i).count pc)) else none

/-- JS loose identity between a character (possibly undefined) and a stored
string (possibly undefined): equal when both are undefined, or when the string
is exactly that one character. -/
def jsEqCharStr (a : Option Char) (b : Option Str) : Bool :=
  match a, b with
  | none, none => true
  | some c, some m => m = [c]
  | _, _ => false

/-- The first still-empty mask slot (src/src/pattern_format.tsx lines
127-132): the first pattern-character position whose displayed character
equals its mask placeholder, or -1. -/
def patternFirstEmptySlot (fmt fv : Str) (pc : Char) (mask : MaskProp) : Int :=
  match (List.range fmt.length).find? (fun i =>
      fmt.get? i == some pc &&
        jsEqCharStr (jsCharAt fv (i : Int)) (some (getMaskAtIndex mask ((fmt.take i).count pc)))) with
  | some i => (i : Int)
  | none => -1

/-- isPosAllowed of the pattern getCaretBoundary (src/src/pattern_format.tsx
lines 137-140): a pattern-character position whose displayed character differs
from its stored mask placeholder. -/
def patternIsPosAllowed (fmt fv : Str) (pc : Char) (mask : MaskProp) (pos : Int) : Bool :=
  jsCharAt fmt pos == some pc &&
    !(jsEqCharStr (jsCharAt fv pos)
      (if 0 ≤ pos then patternMaskAt fmt pc mask pos.toNat else none))

/-- getCaretBoundary of src/src/pattern_format.tsx (lines 111-153).  The final
write at the index of the first pattern character follows JS array semantics:
it can extend the array past its length with holes, modelled by optional
entries. -/
def patternGetCaretBoundary (fv : Str) (props : PatternProps) : List (Option Bool) :=
  let pc := props.patternChar.getD '#'
  let fmt := props.formatStr
  let firstEmptySlot := patternFirstEmptySlot fmt fv pc props.mask
  let boundaryAry := (List.range (fv.length + 1)).map (fun (i : Nat) =>
    some (((i : Int) == firstEmptySlot) ||
      patternIsPosAllowed fmt fv pc props.mask (i : Int) ||
      patternIsPosAllowed fmt fv pc props.mask ((i : Int) - 1)))
  jsArraySet boundaryAry (jsIndexOfChar fmt pc) true

/-- The value object handed to the policy predicate and the value-change
notification.  The derived float field is a function of the canonical string
and is subsumed by quantifying over predicates of this record. -/
structure ValueObject where
  formattedValue : Str
  value : Str
deriving DecidableEq, Repr

/-- The functions NumberFormatBase receives through its props, plus the two
caret utilities it takes from the shared utils module; the caret-position
resolver is kept abstract, the theorems hold for every resolver. -/
structure BaseEnv where
  formatFn : Str → Str
  removeFormattingFn : Str → Option ChangeMeta → Str
  isAllowed : Option (ValueObject → Bool)
  getCaretBoundaryFn : Str → List Bool
  getCaretPositionFn : Str → Str → Str → Int → List Bool → Int

/-- The state NumberFormatBase keeps across events: the committed formatted
value and canonical string, and the selection snapshot captured before the
change when one exists. -/
structure BaseState where
  formattedValue : Str
  numAsString : Str
  caretPositionBeforeChange : Option (Int × Int)

/-- Modelled from the spec: the utils caret snap to the boundary mask (spec
section 4.4) — the position is clamped, then walked to the nearest allowed
slot: the first allowed slot at or after it, else the last allowed slot of the
mask, else the clamped position itself. -/
def getCaretPosInBoundary (value : Str) (caretPos : Int) (boundary : List Bool) : Int :=
  let p := max 0 (min caretPos (value.length : Int))
  match (List.range boundary.length).find? (fun (i : Nat) =>
      decide (p ≤ (i : Int)) && (boundary.getD i false)) with
  | some i => (i : Int)
  | none =>
    match ((List.range boundary.length).filter (fun (i : Nat) => boundary.getD i false)).getLast? with
    | some i => (i : Int)
    | none => p

/-- Modelled from the spec: the utils change-range detector (spec section
4.1) — scan from the left while characters agree, then from the right bounded
by the left scan; the unmatched middles of the two values are the ranges. -/
def commonPrefixLen : Str → Str → Nat
  | a :: as, b :: bs => if a = b then commonPrefixLen as bs + 1 else 0
  | _, _ => 0

/-- Modelled from the spec: the right-hand scan of the change-range detector,
bounded by the left scan (spec section 4.1). -/
def findChangeRange (lastValue currentValue : Str) : NumRange × NumRange :=
  let i := commonPrefixLen lastValue currentValue
  let j := commonPrefixLen (lastValue.drop i).reverse (currentValue.drop i).reverse
  (⟨(i : Int), (lastValue.length : Int) - j⟩, ⟨(i : Int), (currentValue.length : Int) - j⟩)

/-- Modelled from the spec: the change range derived from the pre-change
selection snapshot and the caret position after the change (spec section
4.1). -/
def findChangedRangeFromCaretPositions (selStart selEnd current : Int) : NumRange × NumRange :=
  let start := min selStart current
  (⟨start, selEnd⟩, ⟨start, current⟩)

/-- The change meta assembled by formatInputValue (src/unnamed/part_004 lines
601-604). -/
def changeMetaFor (state : BaseState) (inputValue : Str) (selEnd : Int) : ChangeMeta :=
  let r :=
    match state.caretPositionBeforeChange with
    | some (s, e) => findChangedRangeFromCaretPositions s e selEnd
    | none => findChangeRange state.formattedValue inputValue
  ⟨r.1, r.2, state.formattedValue⟩

/-- The candidate value object of one edit (src/unnamed/part_004 lines
605-609): canonical string from the raw input, formatted value from it, and
the canonical string recovered from that formatted value. -/
def candidateValue (env : BaseEnv) (state : BaseState) (inputValue : Str) (selEnd : Int) :
    ValueObject :=
  let numAsString1 := env.removeFormattingFn inputValue (some (changeMetaFor state inputValue selEnd))
  let formattedValue1 := env.formatFn numAsString1
  ⟨formattedValue1, env.removeFormattingFn formattedValue1 none⟩

/-- getNewCaretPosition of NumberFormatBase (src/unnamed/part_004 lines
534-540): the abstract resolver result snapped into the boundary of the new
formatted value. -/
def getNewCaretPosition (env : BaseEnv) (state : BaseState)
    (inputValue newFormattedValue : Str) (caretPos : Int) : Int :=
  let caretBoundary := env.getCaretBoundaryFn newFormattedValue
  getCaretPosInBoundary newFormattedValue
    (env.getCaretPositionFn newFormattedValue state.formattedValue inputValue caretPos caretBoundary)
    caretBoundary

/-- The outcome of processing one change event: the text written back to the
field, the caret set on it, the value-change notification if one fires, and
whether the edit was accepted. -/
structure StepResult where
  displayValue : Str
  caretPos : Int
  notification : Option ValueObject
  accepted : Bool

/-- formatInputValue of NumberFormatBase (src/unnamed/part_004 lines 599-627):
the candidate is computed, the policy predicate consulted, and either the
previous value and a caret resolved against it are restored with no
notification, or the new value is committed with a notification when the
formatted value changed. -/
def formatInputValue (env : BaseEnv) (state : BaseState) (inputValue : Str) (selEnd : Int) :
    StepResult :=
  let candidate := candidateValue env state inputValue selEnd
  let rejected :=
    match env.isAllowed with
    | some p => !(p candidate)
    | none => false
  if rejected then
    { displayValue := state.formattedValue
      caretPos := getNewCaretPosition env state inputValue state.formattedValue selEnd
      notification := none
      accepted := false }
  else
    { displayValue := candidate.formattedValue
      caretPos := getNewCaretPosition env state inputValue candidate.formattedValue selEnd
      notification := if candidate.formattedValue ≠ state.formattedValue then some candidate else none
      accepted := true }

/-- The _onChange handler of NumberFormatBase (src/unnamed/part_004 lines
634-643): the user onChange callback fires exactly when formatInputValue
accepted the edit. -/
def onChangeFires (env : BaseEnv) (state : BaseState) (inputValue : Str) (selEnd : Int) : Bool :=
  (formatInputValue env state inputValue selEnd).accepted

/-- The decimal-point section of a canonical value: a point followed by the
decimal digits when present, nothing otherwise. -/
def dotPart : Option Str → Str
  | some fp => '.' :: fp
  | none => []

/-- The configuration exercising the round-trip theorem: a boolean thousand
separator, currency prefix and suffix, a fixed two-digit decimal scale and
explicit negation support. -/
def c1props : NumericProps :=
  { thousandSeparator := ThousandSeparatorProp.bval true
    prefixStr := ['$']
    suffixStr := [' ', 'k', 'g']
    decimalScale := some 2
    fixedDecimalScale := true
    allowNegative := some true }

/-- Shape of a canonical result: an optional leading negation sign followed by
digits holding at most one decimal point. -/
def isCanonicalResult (s : Str) : Bool :=
  let t := if s.head? = some '-' then s.drop 1 else s
  t.all (fun c => c.isDigit || c == '.') && decide (t.count '.' ≤ 1)

/-- The caret-boundary shape asserted by the specification for the numeric
format: slots are disallowed exactly on the first prefix-length slots (one
more on a negation sign) and on the last suffix-length slots. -/
def claimNumericBoundary (fv : Str) (props : NumericProps) : List Bool :=
  let preN := props.prefixStr.length + (if jsCharAt fv 0 = some '-' then 1 else 0)
  (List.range (fv.length + 1)).map (fun (i : Nat) =>
    decide (preN ≤ i) && decide (i + props.suffixStr.length ≤ fv.length))

/-- A concrete engine environment used to exercise the base engine theorems:
identity formatting, a boundary allowing every slot, a pass-through caret
resolver, and a policy that rejects every candidate. -/
def sampleRejectingEnv : BaseEnv :=
  { formatFn := fun s => s
    removeFormattingFn := fun s _ => s
    isAllowed := some (fun _ => false)
    getCaretBoundaryFn := fun s => List.replicate (s.length + 1) true
    getCaretPositionFn := fun _ _ _ pos _ => pos }

/-- A concrete engine state used to exercise the base engine theorems. -/
def sampleState : BaseState :=
  { formattedValue := ['1', '2'], numAsString := ['1', '2'], caretPositionBeforeChange := none }

theorem jsFill_length (l : List Bool) (v : Bool) (a b : Int) :
    (jsFill l v a b).length = l.length := by
  unfold jsFill
  simp

theorem jsFill_get? (l : List Bool) (v : Bool) (a b : Int) (i : Nat) (hi : i < l.length) :
    (jsFill l v a b).get? i =
      some (if (if a < 0 then max ((l.length : Int) + a) 0 else min a l.length) ≤ (i : Int) ∧
          (i : Int) < (if b < 0 then max ((l.length : Int) + b) 0 else min b l.length) then v
        else l.getD i false) := by
  unfold jsFill
  simp [List.get?_map, List.get?_range, hi]

theorem jsArraySet_length (l : List (Option Bool)) (i : Int) (v : Bool) :
    (jsArraySet l i v).length =
      if 0 ≤ i ∧ l.length ≤ i.toNat then i.toNat + 1 else l.length := by
  unfold jsArraySet
  split
  · rename_i h
    rw [if_neg]
    omega
  · split
    · rename_i h h2
      rw [List.length_set, if_neg]
      omega
  -- extension past the end
    · rename_i h h2
      simp only [List.length_append, List.length_replicate, List.length_cons, List.length_nil]
      rw [if_pos]
      · omega
      · omega

/-- C9: the empty and sign-only canonical values pass through the numeric
format unchanged, for every configuration: no prefix, suffix, separator or
decimal padding is applied to an incomplete value. -/
theorem c9_incomplete_value_passthrough (props : NumericProps) :
    numericFormatFn [] props = [] ∧ numericFormatFn ['-'] props = ['-'] := by
  constructor <;> simp [numericFormatFn]

/-- C4: setting up the numeric format fails with the configuration error
exactly when the resolved thousand separator (a comma for the boolean true, a
given string verbatim, empty otherwise) equals the resolved decimal separator
(the configured one, or the default point); the per-edit format and
removeFormatting functions run normally even on a configuration with equal
separators, demonstrated on a concrete clashing configuration. -/
theorem c4_construction_time_separator_validation :
    (∀ props : NumericProps,
      validateAndUpdateProps props = .error () ↔
        (match props.thousandSeparator with
         | .bval true => [',']
         | .sval s => s
         | _ => ([] : Str)) = [props.decimalSeparator.getD '.']) ∧
    numericFormatFn ['1', '2', '3', '4', '.', '5']
        { thousandSeparator := .sval ['a'], decimalSeparator := some 'a' } =
      ['1', 'a', '2', '3', '4', 'a', '5'] ∧
    numericRemoveFormatting ['1', '2', 'a', '3', '4']
        (getDefaultChangeMeta ['1', '2', 'a', '3', '4'])
        { thousandSeparator := .sval ['a'], decimalSeparator := some 'a' } =
      ['1', '2', '.', '3', '4'] := by
  refine ⟨fun props => ?_, by decide, by decide⟩
  unfold validateAndUpdateProps getSeparators
  dsimp only
  split
  · rename_i h
    simpa using h
  · rename_i h
    split <;> simp_all

theorem jsSubstring_take (s : Str) (k : Nat) : jsSubstring s 0 (k : Int) = s.take k := by
  simp only [jsSubstring]
  have h1 : (max 0 (min (0 : Int) s.length)).toNat = 0 := by omega
  have h2 : (max 0 (min (k : Int) s.length)).toNat = min k s.length := by omega
  rw [h1, h2, Nat.zero_max, Nat.zero_min, List.drop_zero]
  rcases le_or_lt k s.length with h | h
  · rw [min_eq_left h]
  · rw [min_eq_right (le_of_lt h), List.take_length,
      List.take_of_length_le (le_of_lt h)]

theorem jsSubstring_drop_all (s : Str) (k : Nat) :
    jsSubstring s (k : Int) (s.length : Int) = s.drop k := by
  simp only [jsSubstring]
  have h1 : (max 0 (min (k : Int) s.length)).toNat = min k s.length := by omega
  have h2 : (max 0 (min (s.length : Int) s.length)).toNat = s.length := by omega
  rw [h1, h2]
  have h3 : max (min k s.length) s.length = s.length := by omega
  have h4 : min (min k s.length) s.length = min k s.length := by omega
  rw [h3, h4, List.take_length]
  rcases le_or_lt k s.length with h | h
  · rw [min_eq_left h]
  · rw [min_eq_right (le_of_lt h), List.drop_length, List.drop_eq_nil_of_le (le_of_lt h)]

theorem jsSubstringFrom_nat (s : Str) (k : Nat) : jsSubstringFrom s (k : Int) = s.drop k := by
  rw [jsSubstringFrom, jsSubstring_drop_all]

theorem jsSubstringFrom_zero (s : Str) : jsSubstringFrom s 0 = s := by
  have h := jsSubstringFrom_nat s 0
  simpa using h

theorem stripNegation_no_leading_dash (prefixStr suffixStr v : Str) (s e : Int)
    (hv : v.head? ≠ some '-') :
    stripNegation prefixStr suffixStr v s e = ⟨v, s, e, false⟩ := by
  have htake : v.take 2 ≠ ['-', '-'] := by
    intro hc
    cases v with
    | nil => simp at hc
    | cons x xs =>
      rw [List.take_succ_cons] at hc
      have : x = '-' := by
        have := congrArg (List.head? ·) hc
        simpa using this
      exact hv (by simp [this])
  simp only [stripNegation]
  by_cases hA : prefixStr.head? = some '-'
  · rw [if_pos hA]
    simp
  · rw [if_neg hA, if_neg htake]
    by_cases hC : suffixStr.head? = some '-' ∧ v.length = suffixStr.length
    · rw [if_pos hC]
      simp
    · rw [if_neg hC, if_neg hv]
      simp

theorem stripNegation_nil (prefixStr suffixStr : Str) (s e : Int) :
    stripNegation prefixStr suffixStr [] s e = ⟨[], s, e, false⟩ := by
  apply stripNegation_no_leading_dash
  simp

theorem handleNegation_no_dash (v : Str) (an : Option Bool) (h : ∀ x ∈ v, x ≠ '-') :
    handleNegation v an = v := by
  have hcontains : v.contains '-' = false := by
    rw [List.contains_eq_any_beq]
    simp only [List.any_eq_false]
    intro x hx
    simpa using (h x hx).symm
  have hfilter : v.filter (fun c => c ≠ '-') = v :=
    List.filter_eq_self.mpr (fun x hx => by simpa using h x hx)
  simp only [handleNegation, hcontains, Bool.false_and, Bool.false_eq_true, if_false, hfilter]

theorem numberRegexExtract_no_leading_dash (v : Str) (dsep : Char) (h : v.head? ≠ some '-') :
    numberRegexExtract v dsep = v.filter (fun c => c.isDigit || c == dsep) := by
  rw [numberRegexExtract, if_neg h]

theorem collapseFirstSepGo_not_mem (dsep : Char) (b : Bool) (s : Str) (h : dsep ∉ s) :
    collapseFirstSepGo dsep b s = s := by
  induction s with
  | nil => rfl
  | cons c rest ih =>
    have hc : c ≠ dsep := by
      intro hc
      exact h (by simp [hc])
    simp only [collapseFirstSepGo, if_neg hc]
    rw [ih (fun hm => h (List.mem_cons_of_mem _ hm))]

theorem collapseFirstSep_not_mem (dsep : Char) (s : Str) (h : dsep ∉ s) :
    collapseFirstSep dsep s = s :=
  collapseFirstSepGo_not_mem dsep false s h

theorem collapseFirstSep_single (dsep : Char) (a b : Str) (ha : dsep ∉ a) (hb : dsep ∉ b) :
    collapseFirstSep dsep (a ++ dsep :: b) = a ++ '.' :: b := by
  induction a with
  | nil =>
    show collapseFirstSepGo dsep false (dsep :: b) = '.' :: b
    simp only [collapseFirstSepGo, if_pos rfl, Bool.false_eq_true, if_false]
    rw [collapseFirstSepGo_not_mem dsep true b hb]
    simp
  | cons x xs ih =>
    have hx : x ≠ dsep := fun hc => ha (by simp [hc])
    have hxs : dsep ∉ xs := fun hm => ha (List.mem_cons_of_mem _ hm)
    have hih := ih hxs
    simp only [collapseFirstSep] at hih
    show collapseFirstSepGo dsep false (x :: xs ++ dsep :: b) = (x :: xs) ++ '.' :: b
    rw [List.cons_append, List.cons_append]
    simp only [collapseFirstSepGo, if_neg hx]
    rw [hih]

/-- C5 (amended): the numeric caret boundary has one entry per caret slot and,
provided the suffix is no longer than the slot count, an entry is allowed
exactly when its index is past the prefix (plus one slot on a negation sign)
and at least suffix-length slots from the end.  Without that proviso the
relative fill indexing of JS leaves early slots allowed, see the
counterexample. -/
theorem c5_numeric_caret_boundary_amended (fv : Str) (props : NumericProps) (i : Nat)
    (hsuf : props.suffixStr.length ≤ fv.length + 1) (hi : i ≤ fv.length) :
    (numericGetCaretBoundary fv props).get? i =
      some (decide ((props.prefixStr.length + (if jsCharAt fv 0 = some '-' then 1 else 0) ≤ i) ∧
        i + props.suffixStr.length ≤ fv.length)) := by
  simp only [numericGetCaretBoundary]
  have h1 : (jsFill (List.replicate (fv.length + 1) true) false 0
      ((props.prefixStr.length : Int) + if jsCharAt fv 0 = some '-' then 1 else 0)).length =
      fv.length + 1 := by
    rw [jsFill_length, List.length_replicate]
  rw [jsFill_get? _ _ _ _ i (by rw [h1]; omega)]
  rw [List.getD_eq_get?, jsFill_get? _ _ _ _ i (by simp only [List.length_replicate]; omega)]
  have hrep : (List.replicate (fv.length + 1) true).getD i false = true := by
    simp [List.getD_eq_getElem?_getD, List.getElem?_replicate, Nat.lt_succ_of_le hi]
  simp only [List.length_replicate, h1, Option.getD_some, hrep]
  congr 1
  have hK : ((if jsCharAt fv 0 = some '-' then 1 else 0 : Nat) : Int) =
      (if jsCharAt fv 0 = some '-' then 1 else 0 : Int) := by split <;> rfl
  rw [← hK]
  set K : Nat := if jsCharAt fv 0 = some '-' then 1 else 0 with hKdef
  rw [if_neg (show ¬((fv.length : Int) - props.suffixStr.length + 1 < 0) by omega),
    if_neg (show ¬((fv.length : Int) + 1 < 0) by omega),
    if_neg (show ¬((0 : Int) < 0) by omega),
    if_neg (show ¬((props.prefixStr.length : Int) + (K : Int) < 0) by omega)]
  by_cases hP : props.prefixStr.length + K ≤ i ∧ i + props.suffixStr.length ≤ fv.length
  · rw [if_neg (by omega), if_neg (by omega)]
    simp [hP]
  · by_cases h2 : i + props.suffixStr.length ≤ fv.length
    · rw [if_neg (by omega), if_pos (show _ ∧ _ by constructor <;> omega)]
      simp [hP]
    · rw [if_pos (show _ ∧ _ by constructor <;> omega)]
      simp [hP]

/-- C5 (counterexample): with a suffix longer than the whole slot array the
claimed shape fails — for the two-character value and a four-character suffix
the claim marks every slot disallowed, while the relative fill indexing of the
code leaves the first two slots allowed. -/
theorem c5_numeric_caret_boundary_counterexample :
    numericGetCaretBoundary ['x', 'y'] { suffixStr := ['a', 'b', 'c', 'd'] } ≠
      claimNumericBoundary ['x', 'y'] { suffixStr := ['a', 'b', 'c', 'd'] } := by decide

theorem c5_numeric_caret_boundary_witness :
    (numericGetCaretBoundary ['-', '$', '1', '2', ' ', 'k']
        { prefixStr := ['$'], suffixStr := [' ', 'k'] }).get? 3 = some true ∧
    (numericGetCaretBoundary ['-', '$', '1', '2', ' ', 'k']
        { prefixStr := ['$'], suffixStr := [' ', 'k'] }).get? 1 = some false := by
  constructor
  · rw [c5_numeric_caret_boundary_amended _ _ 3 (by decide) (by decide)]
    decide
  · rw [c5_numeric_caret_boundary_amended _ _ 1 (by decide) (by decide)]
    decide

/-- C6 (amended): the pattern caret boundary has exactly
formattedValue.length + 1 entries whenever the position of the first pattern
character in the format string does not exceed formattedValue.length; when it
does, the final always-allowed write extends the array to that position plus
one.  With no pattern character in the format the write targets index -1 and
the length is formattedValue.length + 1. -/
theorem c6_pattern_caret_boundary_length_amended (fv : Str) (props : PatternProps) :
    (patternGetCaretBoundary fv props).length =
      if (fv.length : Int) + 1 ≤ jsIndexOfChar props.formatStr (props.patternChar.getD '#') then
        (jsIndexOfChar props.formatStr (props.patternChar.getD '#')).toNat + 1
      else fv.length + 1 := by
  simp only [patternGetCaretBoundary]
  rw [jsArraySet_length]
  simp only [List.length_map, List.length_range]
  by_cases hc : (fv.length : Int) + 1 ≤ jsIndexOfChar props.formatStr (props.patternChar.getD '#')
  · rw [if_pos (by omega), if_pos hc]
  · rw [if_neg (by omega), if_neg hc]

/-- C6 (counterexample): on the empty formatted value with the format string
"ab#" the array is extended by the final write at the first pattern-character
position, so its length is 3 and not formattedValue.length + 1 = 1. -/
theorem c6_pattern_caret_boundary_counterexample :
    (patternGetCaretBoundary [] { formatStr := ['a', 'b', '#'] }).length ≠
      ([] : Str).length + 1 := by decide

theorem patternFillSlots_length (pc : Char) (numStr : Str) (mask : MaskProp)
    (hmask : ∀ j, (getMaskAtIndex mask j).length = 1) :
    ∀ (fmt : Str) (h0 : Nat), (patternFillSlots pc numStr mask fmt h0).length = fmt.length := by
  intro fmt
  induction fmt with
  | nil => intro h0; rfl
  | cons c rest ih =>
    intro h0
    simp only [patternFillSlots]
    split
    · cases hn : numStr.get? h0 with
      | some d => simp [hn, ih]
      | none =>
        simp [hn, hmask h0, ih]
        omega
    · simp [ih]

theorem length_one_eq_headI {l : Str} (h : l.length = 1) : l = [l.headI] := by
  rcases List.length_eq_one.mp h with ⟨a, rfl⟩
  rfl

theorem patternFillSlots_get? (pc : Char) (numStr : Str) (mask : MaskProp)
    (hmask : ∀ j, (getMaskAtIndex mask j).length = 1) :
    ∀ (fmt : Str) (h0 i : Nat),
      (patternFillSlots pc numStr mask fmt h0).get? i =
        if fmt.get? i = some pc then
          some ((numStr.get? (h0 + (fmt.take i).count pc)).getD
            ((getMaskAtIndex mask (h0 + (fmt.take i).count pc)).headI))
        else fmt.get? i := by
  intro fmt
  induction fmt with
  | nil => intro h0 i; simp [patternFillSlots]
  | cons c rest ih =>
    intro h0 i
    simp only [patternFillSlots]
    by_cases hc : c = pc
    · rw [if_pos hc]
      have hslot : (match numStr.get? h0 with
          | some d => [d]
          | none => getMaskAtIndex mask h0).length = 1 := by
        cases hn : numStr.get? h0 with
        | some d => rfl
        | none => exact hmask h0
      cases i with
      | zero =>
        rw [List.get?_append (by rw [hslot]; omega)]
        have hcond : (c :: rest).get? 0 = some pc := by simp [hc]
        rw [if_pos hcond]
        simp only [List.take_zero, List.count_nil, Nat.add_zero]
        cases hn : numStr.get? h0 with
        | some d => simp [hn]
        | none =>
          simp only [hn, Option.getD_none]
          conv_lhs => rw [length_one_eq_headI (hmask h0)]
          rfl
      | succ j =>
        rw [List.get?_append_right (by rw [hslot]; omega)]
        rw [hslot]
        simp only [Nat.add_sub_cancel]
        rw [ih (h0 + 1) j]
        have htake : ((c :: rest).take (j + 1)).count pc = (rest.take j).count pc + 1 := by
          simp [List.take_succ_cons, hc]
        simp only [List.get?_cons_succ, htake]
        have harith : h0 + ((rest.take j).count pc + 1) = h0 + 1 + (rest.take j).count pc := by
          omega
        rw [harith]
    · rw [if_neg hc]
      cases i with
      | zero =>
        have hcond : ¬((c :: rest).get? 0 = some pc) := by
          simp only [List.get?_cons_zero, Option.some_inj]
          exact hc
        rw [if_neg hcond]
        rfl
      | succ j =>
        simp only [List.get?_cons_succ]
        rw [ih h0 j]
        have htake : ((c :: rest).take (j + 1)).count pc = (rest.take j).count pc := by
          simp [List.take_succ_cons, List.count_cons, Ne.symm hc]
        rw [htake]

/-- C10: for a non-empty value (or with empty formatting allowed) and a mask
whose per-slot placeholders are single characters, the pattern format returns
a string exactly as long as the format string in which every non-pattern
position keeps the literal format character and every pattern position holds
the next value character, or the slot's mask placeholder once the value is
exhausted. -/
theorem c10_pattern_template_invariant (numStr : Str) (props : PatternProps)
    (hne : numStr ≠ [] ∨ props.allowEmptyFormatting = true)
    (hmask : ∀ j, (getMaskAtIndex props.mask j).length = 1) :
    (patternFormatFn numStr props).length = props.formatStr.length ∧
    (∀ i, props.formatStr.get? i ≠ some (props.patternChar.getD '#') →
      (patternFormatFn numStr props).get? i = props.formatStr.get? i) ∧
    (∀ i, props.formatStr.get? i = some (props.patternChar.getD '#') →
      (patternFormatFn numStr props).get? i =
        some ((numStr.get? ((props.formatStr.take i).count (props.patternChar.getD '#'))).getD
          ((getMaskAtIndex props.mask
            ((props.formatStr.take i).count (props.patternChar.getD '#'))).headI))) := by
  have hearly : ¬(numStr = [] ∧ props.allowEmptyFormatting = false) := by
    rcases hne with h | h
    · exact fun hc => h hc.1
    · intro hc
      rw [h] at hc
      exact Bool.noConfusion hc.2
  simp only [patternFormatFn, if_neg hearly]
  refine ⟨patternFillSlots_length _ _ _ hmask _ _, fun i hi => ?_, fun i hi => ?_⟩
  · rw [patternFillSlots_get? _ _ _ hmask, if_neg hi]
  · rw [patternFillSlots_get? _ _ _ hmask, if_pos hi]
    simp only [Nat.zero_add]

theorem c10_pattern_template_witness :
    (patternFormatFn ['1', '2']
        { formatStr := ['+', '#', 'a', '#', '-', '#'], mask := .sval ['_'] }).length = 6 ∧
    (patternFormatFn ['1', '2']
        { formatStr := ['+', '#', 'a', '#', '-', '#'], mask := .sval ['_'] }).get? 2 = some 'a' ∧
    (patternFormatFn ['1', '2']
        { formatStr := ['+', '#', 'a', '#', '-', '#'], mask := .sval ['_'] }).get? 3 = some '2' ∧
    (patternFormatFn ['1', '2']
        { formatStr := ['+', '#', 'a', '#', '-', '#'], mask := .sval ['_'] }).get? 5 = some '_' := by
  have h := c10_pattern_template_invariant ['1', '2']
    { formatStr := ['+', '#', 'a', '#', '-', '#'], mask := .sval ['_'] }
    (Or.inl (by decide)) (fun j => rfl)
  refine ⟨by rw [h.1]; decide, ?_, ?_, ?_⟩
  · rw [h.2.1 2 (by decide)]
    decide
  · rw [h.2.2 3 (by decide)]
    decide
  · rw [h.2.2 5 (by decide)]
    decide

/-- C7 (counterexample): with the default configuration, typing the decimal
point at offset 3 of the value 1.23 (giving the raw input 1.2.3, a width-one
insertion of an allowed decimal separator, decimal scale not zero) yields
1.23: the typed character is dropped because only the first separator
occurrence is kept, while the claim says the typed character becomes the
result's decimal point, which would give 12.3. -/
theorem c7_decimal_canonicalization_counterexample :
    numericRemoveFormatting ['1', '.', '2', '.', '3'] ⟨⟨3, 4⟩, ⟨3, 4⟩, ['1', '.', '2', '3']⟩ {} =
      ['1', '.', '2', '3'] ∧
    numericRemoveFormatting ['1', '.', '2', '.', '3'] ⟨⟨3, 4⟩, ⟨3, 4⟩, ['1', '.', '2', '3']⟩ {} ≠
      ['1', '2', '.', '3'] := by
  constructor
  · decide
  · decide

theorem digit_ne_dash {x : Char} (h : x.isDigit = true) : x ≠ '-' := by
  intro he
  rw [he] at h
  exact absurd h (by decide)

theorem digit_ne_nondigit {x d : Char} (hx : x.isDigit = true) (hd : d.isDigit = false) :
    x ≠ d := by
  intro he
  rw [he, hd] at hx
  exact Bool.noConfusion hx

theorem jsCharAt_append_cons (a b : Str) (c : Char) :
    jsCharAt (a ++ c :: b) (a.length : Int) = some c := by
  simp only [jsCharAt, if_pos (Int.natCast_nonneg _), Int.toNat_natCast]
  rw [List.get?_append_right (le_refl _)]
  simp

theorem jsCharAt_after_cons (a b : Str) (c : Char) :
    jsCharAt (a ++ c :: b) ((a.length : Int) + 1) = b.head? := by
  have hcast : ((a.length : Int) + 1) = ((a.length + 1 : Nat) : Int) := by push_cast; ring
  rw [hcast]
  simp only [jsCharAt, if_pos (Int.natCast_nonneg _), Int.toNat_natCast]
  rw [show a ++ c :: b = (a ++ [c]) ++ b from by simp]
  rw [List.get?_append_right (by simp)]
  simp only [List.length_append, List.length_cons, List.length_nil, List.get?_eq_getElem?]
  rw [show a.length + (0 + 1) - (a.length + (0 + 1)) = 0 from by omega]
  cases b <;> simp

theorem rfSepCanonValue_insert (a b : Str) (c : Char) (meta : ChangeMeta) (props : NumericProps)
    (hto : meta.toR = ⟨(a.length : Int), (a.length : Int) + 1⟩)
    (hc : (getSeparators props).allowedDecimalSeparators.contains c = true) :
    rfSepCanonValue (a ++ c :: b) meta props =
      (a ++ (if props.decimalScale = some 0 then []
        else [(getSeparators props).decimalSeparator])) ++ b := by
  simp only [rfSepCanonValue, hto]
  rw [if_pos ⟨by omega, by rw [jsCharAt_append_cons]; simpa [isAllowedSepChar] using hc⟩]
  congr 1
  · congr 1
    rw [jsSubstring_take, List.take_left]
  · have hcast : ((a.length : Int) + 1) = ((a.length + 1 : Nat) : Int) := by push_cast; ring
    rw [hcast, jsSubstring_drop_all]
    rw [show a ++ c :: b = (a ++ [c]) ++ b from by simp]
    rw [show a.length + 1 = (a ++ [c]).length from by simp, List.drop_left]

theorem rfStrip_no_decoration (v : Str) (meta : ChangeMeta) (props : NumericProps)
    (hpre : props.prefixStr = []) (hsuf : props.suffixStr = [])
    (hlast : meta.lastValue = []) (hv : v.head? ≠ some '-') :
    rfStrip v meta props = ⟨v, meta.toR.start, meta.toR.stop, false⟩ := by
  simp only [rfStrip, hpre, hsuf, hlast]
  rw [stripNegation_no_leading_dash _ _ _ _ _ hv, stripNegation_nil]
  simp only []
  rw [if_neg (by simp)]
  have hisp : ([] : Str).isPrefixOf v = true := by cases v <;> rfl
  rw [if_pos hisp]
  simp only [List.length_nil, Nat.cast_zero, jsSubstringFrom_zero, Int.sub_zero]
  have hiss : ([] : Str).isSuffixOf v = true := by simp [List.isSuffixOf]
  rw [if_pos hiss]
  rw [jsSubstring_take, List.take_length]

theorem rfNumericCore_clean (v : Str) (toS toE : Int) (props : NumericProps)
    (hdash : ∀ x ∈ v, x ≠ '-')
    (hkeep : ∀ x ∈ v, (x.isDigit || x == (getSeparators props).decimalSeparator) = true) :
    rfNumericCore ⟨v, toS, toE, false⟩ props =
      collapseFirstSep (getSeparators props).decimalSeparator v := by
  have hhd : v.head? ≠ some '-' := by
    intro hcon
    cases v with
    | nil => simp at hcon
    | cons y ys =>
      have : y = '-' := by simpa using hcon
      exact hdash y (by simp) this
  simp only [rfNumericCore, Bool.false_eq_true, if_false]
  rw [handleNegation_no_dash _ _ hdash, numberRegexExtract_no_leading_dash _ _ hhd,
    List.filter_eq_self.mpr hkeep]

/-- C7 (amended): when a single character out of the allowed decimal
separators is inserted into a plain digit string (no prefix, no suffix, empty
last value, non-digit non-dash decimal separator), it is replaced in place
with the configured decimal separator and, being the only separator
occurrence, appears as the result's decimal point; with decimal scale zero it
is dropped entirely.  In general the typed character only survives as the
result's point when it is the first separator occurrence of the stripped
value, see the counterexample. -/
theorem c7_decimal_canonicalization_amended (a b : Str) (c : Char) (props : NumericProps)
    (meta : ChangeMeta)
    (hpre : props.prefixStr = []) (hsuf : props.suffixStr = [])
    (ha : ∀ x ∈ a, x.isDigit = true) (hb : ∀ x ∈ b, x.isDigit = true)
    (hc : (getSeparators props).allowedDecimalSeparators.contains c = true)
    (hd : (getSeparators props).decimalSeparator.isDigit = false)
    (hdm : (getSeparators props).decimalSeparator ≠ '-')
    (hto : meta.toR = ⟨(a.length : Int), (a.length : Int) + 1⟩)
    (hlast : meta.lastValue = []) :
    numericRemoveFormatting (a ++ c :: b) meta props =
      if props.decimalScale = some 0 then a ++ b else a ++ '.' :: b := by
  have hecho : ¬(charIsNumber (a ++ c :: b) = true ∧
      (a ++ c :: b = props.prefixStr ∨ a ++ c :: b = props.suffixStr) ∧
      meta.lastValue = []) := by
    rintro ⟨-, hcase, -⟩
    rcases hcase with hcase | hcase <;>
      [rw [hpre] at hcase; rw [hsuf] at hcase] <;> simp at hcase
  set dsep := (getSeparators props).decimalSeparator with hdsepDef
  set mid : Str := if props.decimalScale = some 0 then [] else [dsep] with hmidDef
  have hmiddash : ∀ x ∈ mid, x ≠ '-' := by
    intro x hx
    rw [hmidDef] at hx
    split at hx
    · simp at hx
    · have : x = dsep := by simpa using hx
      rw [this]
      exact hdm
  have hmidkeep : ∀ x ∈ mid, (x.isDigit || x == dsep) = true := by
    intro x hx
    rw [hmidDef] at hx
    split at hx
    · simp at hx
    · have : x = dsep := by simpa using hx
      simp [this]
  have hv0dash : ∀ x ∈ (a ++ mid) ++ b, x ≠ '-' := by
    intro x hx
    rcases List.mem_append.mp hx with hx | hx
    · rcases List.mem_append.mp hx with hx | hx
      · exact digit_ne_dash (ha x hx)
      · exact hmiddash x hx
    · exact digit_ne_dash (hb x hx)
  have hv0keep : ∀ x ∈ (a ++ mid) ++ b, (x.isDigit || x == dsep) = true := by
    intro x hx
    rcases List.mem_append.mp hx with hx | hx
    · rcases List.mem_append.mp hx with hx | hx
      · simp [ha x hx]
      · exact hmidkeep x hx
    · simp [hb x hx]
  have hv0head : ((a ++ mid) ++ b).head? ≠ some '-' := by
    intro hcon
    cases hvv : (a ++ mid) ++ b with
    | nil => rw [hvv] at hcon; simp at hcon
    | cons y ys =>
      rw [hvv] at hcon
      have hy : y = '-' := by simpa using hcon
      exact hv0dash y (by rw [hvv]; simp) hy
  have hnotbefore : ¬(jsCharAt (a ++ c :: b) meta.toR.stop = some dsep) := by
    rw [hto]
    simp only []
    rw [jsCharAt_after_cons]
    cases b with
    | nil => simp
    | cons y ys =>
      intro hcon
      have hy : y = dsep := by simpa using hcon
      exact digit_ne_nondigit (hb y (by simp)) hd hy
  simp only [numericRemoveFormatting]
  rw [if_neg hecho]
  rw [rfSepCanonValue_insert a b c meta props hto hc]
  rw [← hdsepDef, ← hmidDef]
  rw [rfStrip_no_decoration _ meta props hpre hsuf hlast hv0head]
  rw [rfNumericCore_clean _ _ _ props hv0dash hv0keep]
  rw [if_neg (by rintro ⟨-, -, hcon, -⟩; exact hnotbefore hcon)]
  rw [hmidDef]
  by_cases hs : props.decimalScale = some 0
  · rw [if_pos hs, if_pos hs]
    simp only [List.append_nil]
    rw [collapseFirstSep_not_mem]
    intro hcon
    rcases List.mem_append.mp hcon with hx | hx
    · exact digit_ne_nondigit (ha _ hx) hd rfl
    · exact digit_ne_nondigit (hb _ hx) hd rfl
  · rw [if_neg hs, if_neg hs]
    rw [show (a ++ [dsep]) ++ b = a ++ dsep :: b from by simp]
    rw [collapseFirstSep_single]
    · intro hcon
      exact digit_ne_nondigit (ha _ hcon) hd rfl
    · intro hcon
      exact digit_ne_nondigit (hb _ hcon) hd rfl

theorem c7_decimal_canonicalization_witness :
    numericRemoveFormatting ['1', '2', ',', '5'] ⟨⟨0, 0⟩, ⟨2, 3⟩, []⟩
        { decimalSeparator := some ',' } = ['1', '2', '.', '5'] ∧
    numericRemoveFormatting ['1', '2', ',', '5'] ⟨⟨0, 0⟩, ⟨2, 3⟩, []⟩
        { decimalSeparator := some ',', decimalScale := some 0 } = ['1', '2', '5'] := by
  constructor
  · have h := c7_decimal_canonicalization_amended ['1', '2'] ['5'] ','
      { decimalSeparator := some ',' } ⟨⟨0, 0⟩, ⟨2, 3⟩, []⟩ rfl rfl (by decide) (by decide)
      (by decide) (by decide) (by decide) (by decide) rfl
    simpa using h
  · have h := c7_decimal_canonicalization_amended ['1', '2'] ['5'] ','
      { decimalSeparator := some ',', decimalScale := some 0 } ⟨⟨0, 0⟩, ⟨2, 3⟩, []⟩ rfl rfl
      (by decide) (by decide) (by decide) (by decide) (by decide) (by decide) rfl
    simpa using h

theorem handleNegation_shape (u : Str) (an : Option Bool) :
    ∃ w, (∀ x ∈ w, x ≠ '-') ∧
      (handleNegation u an = w ∨ handleNegation u an = '-' :: w) := by
  refine ⟨u.filter (fun c => c ≠ '-'), fun x hx => by simpa using List.of_mem_filter hx, ?_⟩
  simp only [handleNegation]
  split
  · right; rfl
  · left; rfl

theorem collapseFirstSepGo_mem (d : Char) (bb : Bool) (s : Str) :
    ∀ x ∈ collapseFirstSepGo d bb s, x = '.' ∨ (x ∈ s ∧ x ≠ d) := by
  induction s generalizing bb with
  | nil => intro x hx; simp [collapseFirstSepGo] at hx
  | cons c rest ih =>
    intro x hx
    simp only [collapseFirstSepGo] at hx
    by_cases hc : c = d
    · rw [if_pos hc] at hx
      by_cases hbb : bb = true
      · rw [if_pos hbb] at hx
        rcases ih bb x hx with h | ⟨hm, hnd⟩
        · exact Or.inl h
        · exact Or.inr ⟨List.mem_cons_of_mem _ hm, hnd⟩
      · rw [if_neg hbb] at hx
        rcases List.mem_cons.mp hx with h | h
        · exact Or.inl h
        · rcases ih true x h with h2 | ⟨hm, hnd⟩
          · exact Or.inl h2
          · exact Or.inr ⟨List.mem_cons_of_mem _ hm, hnd⟩
    · rw [if_neg hc] at hx
      rcases List.mem_cons.mp hx with h | h
      · exact Or.inr ⟨by simp [h], by rw [h]; exact hc⟩
      · rcases ih bb x h with h2 | ⟨hm, hnd⟩
        · exact Or.inl h2
        · exact Or.inr ⟨List.mem_cons_of_mem _ hm, hnd⟩

theorem collapseFirstSepGo_true_count (d : Char) (s : Str)
    (h : ∀ x ∈ s, x = '.' → x = d) :
    (collapseFirstSepGo d true s).count '.' = 0 := by
  induction s with
  | nil => rfl
  | cons c rest ih =>
    have hrest := fun x hx => h x (List.mem_cons_of_mem _ hx)
    simp only [collapseFirstSepGo]
    by_cases hc : c = d
    · rw [if_pos hc]
      simp only [if_true]
      exact ih hrest
    · rw [if_neg hc]
      have hcd : c ≠ '.' := by
        intro hcdot
        exact hc (h c (by simp) hcdot)
      rw [List.count_cons_of_ne (by simpa using Ne.symm hcd)]
      exact ih hrest

theorem collapseFirstSepGo_false_count (d : Char) (s : Str)
    (h : ∀ x ∈ s, x = '.' → x = d) :
    (collapseFirstSepGo d false s).count '.' ≤ 1 := by
  induction s with
  | nil => simp [collapseFirstSepGo]
  | cons c rest ih =>
    have hrest := fun x hx => h x (List.mem_cons_of_mem _ hx)
    simp only [collapseFirstSepGo]
    by_cases hc : c = d
    · rw [if_pos hc]
      simp only [Bool.false_eq_true, if_false]
      have h0 := collapseFirstSepGo_true_count d rest hrest
      rw [List.count_cons_self, h0]
    · rw [if_neg hc]
      by_cases hcd : c = '.'
      · exact absurd (h c (by simp) hcd) hc
      · rw [List.count_cons_of_ne (by simpa using Ne.symm hcd)]
        exact ih hrest

theorem isCanonicalResult_of (s : Str) (hhead : s.head? ≠ some '-')
    (hall : ∀ x ∈ s, x.isDigit = true ∨ x = '.') (hcount : s.count '.' ≤ 1) :
    isCanonicalResult s = true := by
  simp only [isCanonicalResult, if_neg hhead, Bool.and_eq_true, List.all_eq_true,
    decide_eq_true_eq]
  refine ⟨fun x hx => ?_, hcount⟩
  rcases hall x hx with h | h <;> simp [h]

theorem isCanonicalResult_dash (s : Str)
    (hall : ∀ x ∈ s, x.isDigit = true ∨ x = '.') (hcount : s.count '.' ≤ 1) :
    isCanonicalResult ('-' :: s) = true := by
  have hhead : ('-' :: s).head? = some '-' := rfl
  simp only [isCanonicalResult, if_pos hhead, List.drop_one, List.tail_cons,
    Bool.and_eq_true, List.all_eq_true, decide_eq_true_eq]
  refine ⟨fun x hx => ?_, hcount⟩
  rcases hall x hx with h | h <;> simp [h]

theorem filter_keep_mem {u : Str} {d x : Char}
    (hx : x ∈ u.filter (fun c => c.isDigit || c == d)) :
    (x.isDigit = true ∨ x = d) := by
  have := List.of_mem_filter hx
  simpa using this

theorem collapse_of_filter_canonical (w : Str) (d : Char) (hw : ∀ x ∈ w, x ≠ '-') :
    isCanonicalResult
      (collapseFirstSepGo d false (w.filter (fun c => c.isDigit || c == d))) = true := by
  set F := w.filter (fun c => c.isDigit || c == d) with hF
  have hFdot : ∀ x ∈ F, x = '.' → x = d := by
    intro x hx hdot
    rcases filter_keep_mem hx with h | h
    · rw [hdot] at h
      exact absurd h (by decide)
    · exact h
  have hFdash : ∀ x ∈ F, x ≠ '-' := fun x hx => hw x (List.mem_filter.mp hx).1
  apply isCanonicalResult_of
  · intro hcon
    cases hgo : collapseFirstSepGo d false F with
    | nil => rw [hgo] at hcon; simp at hcon
    | cons y ys =>
      rw [hgo] at hcon
      have hy : y = '-' := by simpa using hcon
      have hmem : y ∈ collapseFirstSepGo d false F := by rw [hgo]; simp
      rcases collapseFirstSepGo_mem d false F y hmem with h | ⟨hm, -⟩
      · rw [hy] at h; exact absurd h (by decide)
      · exact hFdash y hm hy
  · intro x hx
    rcases collapseFirstSepGo_mem d false F x hx with h | ⟨hm, hnd⟩
    · exact Or.inr h
    · rcases filter_keep_mem hm with h | h
      · exact Or.inl h
      · exact absurd h hnd
  · exact collapseFirstSepGo_false_count d F hFdot

theorem rfNumericCore_canonical (st : RfStripped) (props : NumericProps) :
    isCanonicalResult (rfNumericCore st props) = true := by
  simp only [rfNumericCore]
  set u := if st.hasNegation = true then '-' :: st.value else st.value with hu
  set d := (getSeparators props).decimalSeparator with hd
  obtain ⟨w, hwdash, hcase⟩ := handleNegation_shape u props.allowNegative
  rcases hcase with hcase | hcase <;> rw [hcase]
  · -- no reattached sign
    have hwhead : w.head? ≠ some '-' := by
      intro hcon
      cases w with
      | nil => simp at hcon
      | cons y ys => exact hwdash y (by simp) (by simpa using hcon)
    rw [numberRegexExtract_no_leading_dash _ _ hwhead]
    exact collapse_of_filter_canonical w d hwdash
  · -- a reattached sign in front
    rw [numberRegexExtract, if_pos (show ('-' :: w).head? = some '-' from rfl)]
    simp only [List.drop_one, List.tail_cons]
    by_cases hdd : '-' = d
    · -- the separator is the negation sign itself: the sign becomes the point
      simp only [collapseFirstSep, collapseFirstSepGo, if_pos hdd, Bool.false_eq_true, if_false]
      set F := w.filter (fun c => c.isDigit || c == d) with hF
      have hFdot : ∀ x ∈ F, x = '.' → x = d := by
        intro x hx hdot
        rcases filter_keep_mem hx with h | h
        · rw [hdot] at h
          exact absurd h (by decide)
        · exact h
      apply isCanonicalResult_of
      · simp
      · intro x hx
        rcases List.mem_cons.mp hx with h | h
        · exact Or.inr h
        · rcases collapseFirstSepGo_mem d true F x h with h2 | ⟨hm, hnd⟩
          · exact Or.inr h2
          · rcases filter_keep_mem hm with h2 | h2
            · exact Or.inl h2
            · exact absurd h2 hnd
      · have h0 := collapseFirstSepGo_true_count d F hFdot
        rw [List.count_cons_self, h0]
    · -- ordinary separator: the sign survives in front
      simp only [collapseFirstSep, collapseFirstSepGo, if_neg hdd]
      have hwdash2 := hwdash
      apply isCanonicalResult_dash
      · intro x hx
        rcases collapseFirstSepGo_mem d false _ x hx with h | ⟨hm, hnd⟩
        · exact Or.inr h
        · rcases filter_keep_mem hm with h | h
          · exact Or.inl h
          · exact absurd h hnd
      · have hFdot : ∀ x ∈ w.filter (fun c => c.isDigit || c == d), x = '.' → x = d := by
          intro x hx hdot
          rcases filter_keep_mem hx with h | h
          · rw [hdot] at h
            exact absurd h (by decide)
          · exact h
        exact collapseFirstSepGo_false_count d _ hFdot

theorem numericRemoveFormatting_canonical (value : Str) (meta : ChangeMeta)
    (props : NumericProps)
    (h : ¬(charIsNumber value = true ∧ (value = props.prefixStr ∨ value = props.suffixStr) ∧
      meta.lastValue = [])) :
    isCanonicalResult (numericRemoveFormatting value meta props) = true := by
  simp only [numericRemoveFormatting, if_neg h]
  split
  · split
    · decide
    · decide
  · exact rfNumericCore_canonical _ _

theorem removeFormatChar_digits (fmt : Str) (pc : Char) :
    ∀ (s : Str) (pos : Int) (x : Char), x ∈ removeFormatChar fmt pc s pos → x.isDigit = true := by
  intro s
  induction s with
  | nil => intro pos x hx; simp [removeFormatChar] at hx
  | cons c rest ih =>
    intro pos x hx
    simp only [removeFormatChar] at hx
    split at hx
    · rename_i hcond
      rcases List.mem_cons.mp hx with h | h
      · rw [h]; exact hcond.2
      · exact ih (pos + 1) x h
    · exact ih (pos + 1) x hx

theorem pastedSlots_digits (pc : Char) :
    ∀ (v fmt s : Str), pastedSlots pc fmt v = some s → ∀ x ∈ s, x.isDigit = true := by
  intro v
  induction v with
  | nil =>
    intro fmt s hs x hx
    simp only [pastedSlots] at hs
    cases hs
    simp at hx
  | cons c rest ih =>
    intro fmt s hs x hx
    cases fmt with
    | nil => simp [pastedSlots] at hs
    | cons fc frest =>
      simp only [pastedSlots] at hs
      by_cases hfc : fc = pc
      · rw [if_pos hfc] at hs
        cases htail : pastedSlots pc frest rest with
        | none => rw [htail] at hs; cases hs
        | some tail =>
          rw [htail] at hs
          cases hs
          by_cases hcd : c.isDigit = true
          · rw [if_pos hcd] at hx
            rcases List.mem_cons.mp hx with h | h
            · rw [h]; exact hcd
            · exact ih frest tail htail x h
          · rw [if_neg hcd] at hx
            exact ih frest tail htail x hx
      · rw [if_neg hfc] at hs
        by_cases hcc : c ≠ fc
        · rw [if_pos hcc] at hs; cases hs
        · rw [if_neg hcc] at hs
          exact ih frest s hs x hx

theorem patternRemoveFormatting_digits (value : Str) (meta : ChangeMeta)
    (props : PatternProps) :
    ∀ x ∈ patternRemoveFormatting value meta props, x.isDigit = true := by
  intro x hx
  simp only [patternRemoveFormatting] at hx
  split at hx
  · exact (List.mem_filter.mp hx).2
  · split at hx
    · split at hx
      · rename_i s hsome
        exact pastedSlots_digits _ _ _ _ hsome x hx
      · exact (List.mem_filter.mp hx).2
    · rcases List.mem_append.mp hx with hx | hx
      · rcases List.mem_append.mp hx with hx | hx
        · exact removeFormatChar_digits _ _ _ _ x hx
        · exact (List.mem_filter.mp hx).2
      · exact removeFormatChar_digits _ _ _ _ x hx

/-- C3: both removeFormatting functions are total and silent.  The numeric one
returns, for every input string, change meta and configuration, either a
canonical-shaped string (an optional leading sign, then digits with at most
one point — the empty and the bare sign strings included) or, on the
prefix/suffix echo path, the input itself; the pattern one always returns a
digit-only string.  No input raises: both are total functions of their
arguments. -/
theorem c3_remove_formatting_total_and_silent (value : Str) (meta : ChangeMeta)
    (nprops : NumericProps) (pprops : PatternProps) :
    (isCanonicalResult (numericRemoveFormatting value meta nprops) = true ∨
      (numericRemoveFormatting value meta nprops = value ∧
        (value = nprops.prefixStr ∨ value = nprops.suffixStr))) ∧
    (patternRemoveFormatting value meta pprops).all (fun c => c.isDigit) = true := by
  constructor
  · by_cases h : charIsNumber value = true ∧
        (value = nprops.prefixStr ∨ value = nprops.suffixStr) ∧ meta.lastValue = []
    · right
      refine ⟨?_, h.2.1⟩
      simp only [numericRemoveFormatting, if_pos h]
    · left
      exact numericRemoveFormatting_canonical value meta nprops h
  · rw [List.all_eq_true]
    intro x hx
    simpa using patternRemoveFormatting_digits value meta pprops x hx

theorem count_dot_le_of_canonical (s : Str) (h : isCanonicalResult s = true) :
    s.count '.' ≤ 1 := by
  simp only [isCanonicalResult, Bool.and_eq_true, decide_eq_true_eq] at h
  by_cases hh : s.head? = some '-'
  · rw [if_pos hh] at h
    cases s with
    | nil => simp at hh
    | cons y ys =>
      have hy : y = '-' := by simpa using hh
      rw [List.count_cons_of_ne (by rw [hy]; decide)]
      simpa using h.2
  · rw [if_neg hh] at h
    exact h.2

theorem collapseFirstSepGo_true_drop (d : Char) (b c : Str) (hb : d ∉ b) (hc : d ∉ c) :
    collapseFirstSepGo d true (b ++ d :: c) = b ++ c := by
  induction b with
  | nil =>
    show collapseFirstSepGo d true (d :: c) = c
    simp only [collapseFirstSepGo, if_pos rfl, if_true]
    exact collapseFirstSepGo_not_mem d true c hc
  | cons x xs ih =>
    have hx : x ≠ d := fun hcon => hb (by simp [hcon])
    have hxs : d ∉ xs := fun hm => hb (List.mem_cons_of_mem _ hm)
    show collapseFirstSepGo d true (x :: (xs ++ d :: c)) = x :: (xs ++ c)
    simp only [collapseFirstSepGo, if_neg hx]
    rw [ih hxs]

theorem collapseFirstSep_two (d : Char) (a b c : Str)
    (ha : d ∉ a) (hb : d ∉ b) (hc : d ∉ c) :
    collapseFirstSep d (a ++ d :: (b ++ d :: c)) = a ++ '.' :: (b ++ c) := by
  induction a with
  | nil =>
    show collapseFirstSepGo d false (d :: (b ++ d :: c)) = '.' :: (b ++ c)
    simp only [collapseFirstSepGo, if_pos rfl, Bool.false_eq_true, if_false]
    rw [collapseFirstSepGo_true_drop d b c hb hc]
    simp
  | cons x xs ih =>
    have hx : x ≠ d := fun hcon => ha (by simp [hcon])
    have hxs : d ∉ xs := fun hm => ha (List.mem_cons_of_mem _ hm)
    have hih := ih hxs
    simp only [collapseFirstSep] at hih
    show collapseFirstSepGo d false (x :: (xs ++ d :: (b ++ d :: c))) = x :: (xs ++ '.' :: (b ++ c))
    simp only [collapseFirstSepGo, if_neg hx]
    rw [hih]

theorem jsCharAt_length (s : Str) : jsCharAt s (s.length : Int) = none := by
  simp only [jsCharAt, if_pos (Int.natCast_nonneg _), Int.toNat_natCast]
  simp

theorem rfSepCanonValue_skip (value : Str) (meta : ChangeMeta) (props : NumericProps)
    (h : meta.toR.stop - meta.toR.start ≠ 1) :
    rfSepCanonValue value meta props = value := by
  simp only [rfSepCanonValue]
  rw [if_neg (fun hc => h hc.1)]

theorem head?_ne_dash_of_no_dash (v : Str) (h : ∀ x ∈ v, x ≠ '-') :
    v.head? ≠ some '-' := by
  intro hcon
  cases v with
  | nil => simp at hcon
  | cons y ys => exact h y (by simp) (by simpa using hcon)

/-- C8 (counterexample): the early echo return for a value equal to a
digit-holding prefix with empty last value hands back the raw prefix text, so
the result can hold several decimal points. -/
theorem c8_first_occurrence_collapse_counterexample :
    ¬((numericRemoveFormatting ['1', '.', '2', '.', '3']
        (getDefaultChangeMeta ['1', '.', '2', '.', '3'])
        { prefixStr := ['1', '.', '2', '.', '3'] }).count '.' ≤ 1) := by decide

/-- C8 (amended): outside the prefix/suffix echo return, the numeric
removeFormatting result always holds at most one decimal point; and on a plain
digit string holding two occurrences of the configured decimal separator (no
decoration, default change meta, non-digit non-dash separator) exactly the
first occurrence becomes the point while the later one is removed. -/
theorem c8_first_occurrence_collapse_amended :
    (∀ (value : Str) (meta : ChangeMeta) (props : NumericProps),
      ¬(charIsNumber value = true ∧ (value = props.prefixStr ∨ value = props.suffixStr) ∧
        meta.lastValue = []) →
      (numericRemoveFormatting value meta props).count '.' ≤ 1) ∧
    (∀ (a b c : Str) (props : NumericProps),
      props.prefixStr = [] → props.suffixStr = [] →
      (∀ x ∈ a, x.isDigit = true) → (∀ x ∈ b, x.isDigit = true) →
      (∀ x ∈ c, x.isDigit = true) →
      (getSeparators props).decimalSeparator.isDigit = false →
      (getSeparators props).decimalSeparator ≠ '-' →
      numericRemoveFormatting
          (a ++ (getSeparators props).decimalSeparator ::
            (b ++ (getSeparators props).decimalSeparator :: c))
          (getDefaultChangeMeta
            (a ++ (getSeparators props).decimalSeparator ::
              (b ++ (getSeparators props).decimalSeparator :: c)))
          props =
        a ++ '.' :: (b ++ c)) := by
  constructor
  · intro value meta props h
    exact count_dot_le_of_canonical _ (numericRemoveFormatting_canonical value meta props h)
  · intro a b c props hpre hsuf ha hb hc hd hdm
    set d := (getSeparators props).decimalSeparator with hdDef
    set v : Str := a ++ d :: (b ++ d :: c) with hvDef
    have hda : d ∉ a := fun hm => digit_ne_nondigit (ha d hm) hd rfl
    have hdb : d ∉ b := fun hm => digit_ne_nondigit (hb d hm) hd rfl
    have hdc : d ∉ c := fun hm => digit_ne_nondigit (hc d hm) hd rfl
    have hvdash : ∀ x ∈ v, x ≠ '-' := by
      intro x hx
      rw [hvDef] at hx
      rcases List.mem_append.mp hx with hx | hx
      · exact digit_ne_dash (ha x hx)
      · rcases List.mem_cons.mp hx with hx | hx
        · rw [hx]; exact hdm
        · rcases List.mem_append.mp hx with hx | hx
          · exact digit_ne_dash (hb x hx)
          · rcases List.mem_cons.mp hx with hx | hx
            · rw [hx]; exact hdm
            · exact digit_ne_dash (hc x hx)
    have hvkeep : ∀ x ∈ v, (x.isDigit || x == d) = true := by
      intro x hx
      rw [hvDef] at hx
      rcases List.mem_append.mp hx with hx | hx
      · simp [ha x hx]
      · rcases List.mem_cons.mp hx with hx | hx
        · simp [hx]
        · rcases List.mem_append.mp hx with hx | hx
          · simp [hb x hx]
          · rcases List.mem_cons.mp hx with hx | hx
            · simp [hx]
            · simp [hc x hx]
    have hvne : v ≠ [] := by
      rw [hvDef]
      intro hcon
      have := congrArg List.length hcon
      simp at this
    have hecho : ¬(charIsNumber v = true ∧ (v = props.prefixStr ∨ v = props.suffixStr) ∧
        (getDefaultChangeMeta v).lastValue = []) := by
      rintro ⟨-, hcase, -⟩
      rcases hcase with hcase | hcase
      · rw [hpre] at hcase; exact hvne hcase
      · rw [hsuf] at hcase; exact hvne hcase
    have hlen2 : 2 ≤ v.length := by
      rw [hvDef]
      simp
      omega
    simp only [numericRemoveFormatting]
    rw [if_neg hecho]
    rw [rfSepCanonValue_skip v (getDefaultChangeMeta v) props
      (by simp only [getDefaultChangeMeta]; omega)]
    rw [rfStrip_no_decoration v (getDefaultChangeMeta v) props hpre hsuf rfl
      (head?_ne_dash_of_no_dash v hvdash)]
    rw [rfNumericCore_clean v _ _ props hvdash hvkeep]
    rw [if_neg ?hclear]
    case hclear =>
      rintro ⟨-, -, hcon, -⟩
      rw [show (getDefaultChangeMeta v).toR.stop = (v.length : Int) from rfl] at hcon
      rw [jsCharAt_length] at hcon
      exact Option.noConfusion hcon
    rw [hvDef, ← hdDef]
    exact collapseFirstSep_two d a b c hda hdb hdc

theorem c8_first_occurrence_collapse_witness :
    numericRemoveFormatting ['1', '.', '2', '.', '3']
        (getDefaultChangeMeta ['1', '.', '2', '.', '3']) {} = ['1', '.', '2', '3'] ∧
    (numericRemoveFormatting ['9', '-', 'x'] ⟨⟨0, 2⟩, ⟨0, 3⟩, ['9']⟩
        { suffixStr := ['k', 'g'] }).count '.' ≤ 1 := by
  constructor
  · exact c8_first_occurrence_collapse_amended.2 ['1'] ['2'] ['3'] {} rfl rfl
      (by decide) (by decide) (by decide) (by decide) (by decide)
  · exact c8_first_occurrence_collapse_amended.1 ['9', '-', 'x'] ⟨⟨0, 2⟩, ⟨0, 3⟩, ['9']⟩
      { suffixStr := ['k', 'g'] } (by decide)

theorem getD_true_lt_length {boundary : List Bool} {i : Nat}
    (h : boundary.getD i false = true) : i < boundary.length := by
  by_contra hc
  rw [List.getD_eq_getElem?_getD, List.getElem?_eq_none (by omega)] at h
  simp at h

theorem getCaretPosInBoundary_mem (value : Str) (pos : Int) (boundary : List Bool)
    (h : ∃ i : Nat, boundary.getD i false = true) :
    boundary.getD (getCaretPosInBoundary value pos boundary).toNat false = true := by
  simp only [getCaretPosInBoundary]
  cases hfind : (List.range boundary.length).find? (fun (i : Nat) =>
      decide (max 0 (min pos (value.length : Int)) ≤ (i : Int)) && boundary.getD i false) with
  | some i =>
    have hpred := List.find?_some hfind
    simp only [Bool.and_eq_true, decide_eq_true_eq] at hpred
    simpa using hpred.2
  | none =>
    cases hlast : ((List.range boundary.length).filter
        (fun (i : Nat) => boundary.getD i false)).getLast? with
    | some j =>
      have hmem : j ∈ (List.range boundary.length).filter
          (fun (i : Nat) => boundary.getD i false) :=
        List.mem_of_mem_getLast? hlast
      have hj := (List.mem_filter.mp hmem).2
      simpa using hj
    | none =>
      obtain ⟨i, hi⟩ := h
      have hilen : i < boundary.length := getD_true_lt_length hi
      have hmem : i ∈ (List.range boundary.length).filter
          (fun (i : Nat) => boundary.getD i false) :=
        List.mem_filter.mpr ⟨List.mem_range.mpr hilen, hi⟩
      have hne : (List.range boundary.length).filter
          (fun (i : Nat) => boundary.getD i false) ≠ [] :=
        List.ne_nil_of_mem hmem
      exact absurd (List.getLast?_eq_none_iff.mp hlast) hne

/-- C2: policy rejection leaves no trace.  For every environment (any format,
removeFormatting and caret-resolver functions), state and change event, when
the isAllowed predicate rejects the candidate value object, the processing
step writes the previous formatted value back to the field, resolves the caret
against the previous formatted value and its own boundary (landing on an
allowed slot of the previous value whenever one exists), raises nothing (it is
a total function), emits no value-change notification, marks the edit
unaccepted, and the onChange callback does not fire. -/
theorem c2_policy_rejection_leaves_no_trace (env : BaseEnv) (state : BaseState)
    (inputValue : Str) (selEnd : Int) (p : ValueObject → Bool)
    (hp : env.isAllowed = some p)
    (hrej : p (candidateValue env state inputValue selEnd) = false) :
    (formatInputValue env state inputValue selEnd).displayValue = state.formattedValue ∧
    (formatInputValue env state inputValue selEnd).notification = none ∧
    (formatInputValue env state inputValue selEnd).accepted = false ∧
    onChangeFires env state inputValue selEnd = false ∧
    (formatInputValue env state inputValue selEnd).caretPos =
      getNewCaretPosition env state inputValue state.formattedValue selEnd ∧
    ((∃ i : Nat, (env.getCaretBoundaryFn state.formattedValue).getD i false = true) →
      (env.getCaretBoundaryFn state.formattedValue).getD
        (formatInputValue env state inputValue selEnd).caretPos.toNat false = true) := by
  have hstep : formatInputValue env state inputValue selEnd =
      { displayValue := state.formattedValue
        caretPos := getNewCaretPosition env state inputValue state.formattedValue selEnd
        notification := none
        accepted := false } := by
    simp only [formatInputValue, hp, hrej, Bool.not_false, if_true]
  refine ⟨by rw [hstep], by rw [hstep], by rw [hstep], ?_, by rw [hstep], ?_⟩
  · simp only [onChangeFires, hstep]
  · intro hex
    rw [hstep]
    exact getCaretPosInBoundary_mem state.formattedValue _ _ hex

theorem c2_policy_rejection_witness :
    (formatInputValue sampleRejectingEnv sampleState ['1', '2', '3'] 3).displayValue =
      ['1', '2'] ∧
    (formatInputValue sampleRejectingEnv sampleState ['1', '2', '3'] 3).notification = none ∧
    (formatInputValue sampleRejectingEnv sampleState ['1', '2', '3'] 3).accepted = false ∧
    onChangeFires sampleRejectingEnv sampleState ['1', '2', '3'] 3 = false ∧
    (sampleRejectingEnv.getCaretBoundaryFn sampleState.formattedValue).getD
      (formatInputValue sampleRejectingEnv sampleState ['1', '2', '3'] 3).caretPos.toNat
      false = true := by
  have h := c2_policy_rejection_leaves_no_trace sampleRejectingEnv sampleState
    ['1', '2', '3'] 3 (fun _ => false) rfl rfl
  exact ⟨h.1, h.2.1, h.2.2.1, h.2.2.2.1, h.2.2.2.2.2 ⟨0, by decide⟩⟩

theorem takeWhile_append_all {p : Char → Bool} (l₁ l₂ : Str) (h : ∀ x ∈ l₁, p x = true) :
    (l₁ ++ l₂).takeWhile p = l₁ ++ l₂.takeWhile p := by
  induction l₁ with
  | nil => simp
  | cons c rest ih =>
    rw [List.cons_append, List.takeWhile_cons, if_pos (h c (by simp)), List.cons_append,
      ih (fun x hx => h x (List.mem_cons_of_mem _ hx))]

theorem dropWhile_append_all {p : Char → Bool} (l₁ l₂ : Str) (h : ∀ x ∈ l₁, p x = true) :
    (l₁ ++ l₂).dropWhile p = l₂.dropWhile p := by
  induction l₁ with
  | nil => simp
  | cons c rest ih =>
    rw [List.cons_append, List.dropWhile_cons, if_pos (h c (by simp)),
      ih (fun x hx => h x (List.mem_cons_of_mem _ hx))]

theorem flatten_chunksLeftGo (n : Nat) :
    ∀ (fuel : Nat) (l : Str), (chunksLeftGo n fuel l).flatten = l := by
  intro fuel
  induction fuel with
  | zero =>
    intro l
    cases l with
    | nil => rfl
    | cons c rest => simp [chunksLeftGo]
  | succ fuel ih =>
    intro l
    cases l with
    | nil => rfl
    | cons c rest =>
      show (if n = 0 then [c :: rest]
        else (c :: rest).take n :: chunksLeftGo n fuel ((c :: rest).drop n)).flatten = c :: rest
      split
      · simp
      · rw [List.flatten_cons, ih]
        exact List.take_append_drop n (c :: rest)

theorem flatten_chunksLeft (n : Nat) (l : Str) : (chunksLeft n l).flatten = l :=
  flatten_chunksLeftGo n l.length l

theorem flatten_reverse_map_reverse (L : List Str) :
    ((L.map List.reverse).reverse).flatten = L.flatten.reverse := by
  rw [List.reverse_flatten]

theorem flatten_groupChunks (style : ThousandsGroupStyle) (s : Str) :
    (groupChunks style s).flatten = s := by
  cases style with
  | thousand =>
    show ((chunksLeft 3 s.reverse).map List.reverse).reverse.flatten = s
    rw [flatten_reverse_map_reverse, flatten_chunksLeft, List.reverse_reverse]
  | wan =>
    show ((chunksLeft 4 s.reverse).map List.reverse).reverse.flatten = s
    rw [flatten_reverse_map_reverse, flatten_chunksLeft, List.reverse_reverse]
  | nogroup => simp [groupChunks]
  | lakh =>
    show (((chunksLeft 2 (s.reverse.drop 3)).map List.reverse).reverse ++
      (if s.reverse.take 3 = [] then [] else [(s.reverse.take 3).reverse])).flatten = s
    rw [List.flatten_append, flatten_reverse_map_reverse, flatten_chunksLeft]
    split
    · rename_i htake
      have hrev : s.reverse = [] := by
        cases hs : s.reverse with
        | nil => rfl
        | cons y ys => rw [hs] at htake; simp at htake
      rw [hrev]
      have := congrArg List.reverse hrev
      simpa using this.symm
    · rw [show [(s.reverse.take 3).reverse].flatten = (s.reverse.take 3).reverse from by simp]
      rw [← List.reverse_append, List.take_append_drop, List.reverse_reverse]

theorem joinSep_filter {p : Char → Bool} (sep : Str) (hsep : ∀ x ∈ sep, p x = false) :
    ∀ L : List Str, (joinSep sep L).filter p = L.flatten.filter p := by
  intro L
  induction L with
  | nil => rfl
  | cons c rest ih =>
    cases rest with
    | nil => simp [joinSep]
    | cons c2 rest2 =>
      show (c ++ sep ++ joinSep sep (c2 :: rest2)).filter p = _
      have hsepnil : sep.filter p = [] :=
        List.filter_eq_nil_iff.mpr (fun x hx => by simp [hsep x hx])
      rw [List.filter_append, List.filter_append, hsepnil, List.append_nil, ih]
      simp [List.filter_append]

theorem mem_joinSep (sep : Str) (L : List Str) (x : Char) (hx : x ∈ joinSep sep L) :
    x ∈ L.flatten ∨ x ∈ sep := by
  induction L with
  | nil => simp [joinSep] at hx
  | cons c rest ih =>
    cases rest with
    | nil =>
      left
      simpa [joinSep] using hx
    | cons c2 rest2 =>
      rw [show joinSep sep (c :: c2 :: rest2) = c ++ sep ++ joinSep sep (c2 :: rest2) from rfl]
        at hx
      rcases List.mem_append.mp hx with hx | hx
      · rcases List.mem_append.mp hx with hx | hx
        · left; rw [List.flatten_cons]; exact List.mem_append.mpr (Or.inl hx)
        · right; exact hx
      · rcases ih hx with h | h
        · left; rw [List.flatten_cons]; exact List.mem_append.mpr (Or.inr h)
        · right; exact h

theorem applyThousandSeparator_filter {p : Char → Bool} (s sep : Str)
    (style : ThousandsGroupStyle)
    (hsep : ∀ x ∈ sep, p x = false) (hs : ∀ x ∈ s, p x = true) :
    (applyThousandSeparator s sep style).filter p = s := by
  rw [applyThousandSeparator, joinSep_filter sep hsep, flatten_groupChunks]
  exact List.filter_eq_self.mpr hs

theorem applyThousandSeparator_mem (s sep : Str) (style : ThousandsGroupStyle) (x : Char)
    (hx : x ∈ applyThousandSeparator s sep style) : x ∈ s ∨ x ∈ sep := by
  rw [applyThousandSeparator] at hx
  rcases mem_joinSep sep _ x hx with h | h
  · left; rwa [flatten_groupChunks] at h
  · right; exact h

theorem digit_ne_dot {x : Char} (h : x.isDigit = true) : x ≠ '.' :=
  digit_ne_nondigit h (by decide)

theorem jsCharAt_zero (s : Str) : jsCharAt s 0 = s.head? := by
  cases s <;> simp [jsCharAt]

theorem splitDecimal_canonical (sign : Bool) (ip : Str) (dp : Option Str) (an : Bool)
    (hip : ∀ x ∈ ip, x.isDigit = true)
    (hcore : ip ≠ [] ∨ dp.isSome = true) :
    splitDecimal ((if sign then ['-'] else []) ++ ip ++ dotPart dp) an =
      ⟨ip, dp.getD [], sign && an⟩ := by
  have hipdot : ∀ x ∈ ip, (decide (x ≠ '.')) = true := fun x hx => by
    simpa using digit_ne_dot (hip x hx)
  cases dp with
  | none =>
    have hcore2 : ip ≠ [] := by
      rcases hcore with h | h
      · exact h
      · simp at h
    have htw : ip.takeWhile (fun c => decide (c ≠ '.')) = ip := by
      have h := takeWhile_append_all ip ([] : Str) hipdot
      simpa using h
    have hdw : ip.dropWhile (fun c => decide (c ≠ '.')) = [] := by
      have h := dropWhile_append_all ip ([] : Str) hipdot
      simpa using h
    show splitDecimal ((if sign then ['-'] else []) ++ ip ++ []) an = ⟨ip, [], sign && an⟩
    rw [List.append_nil]
    cases sign with
    | true =>
      show splitDecimal ('-' :: ip) an = ⟨ip, [], true && an⟩
      have hchar : jsCharAt ('-' :: ip) 0 = some '-' := by rw [jsCharAt_zero]; rfl
      simp only [splitDecimal, if_pos hchar, List.drop_one, List.tail_cons]
      rw [SplitDecimalResult.mk.injEq]
      exact ⟨htw, by rw [hdw]; rfl, by simp⟩
    | false =>
      show splitDecimal (ip) an = ⟨ip, [], false && an⟩
      have hchar : jsCharAt ip 0 ≠ some '-' := by
        rw [jsCharAt_zero]
        cases hip2 : ip with
        | nil => simp
        | cons d ds =>
          intro hcon
          exact digit_ne_dash (hip d (by rw [hip2]; simp)) (by simpa using hcon)
      simp only [splitDecimal, if_neg hchar]
      rw [SplitDecimalResult.mk.injEq]
      exact ⟨htw, by rw [hdw]; rfl, by simp⟩
  | some fp =>
    have htw : (ip ++ '.' :: fp).takeWhile (fun c => decide (c ≠ '.')) = ip := by
      rw [takeWhile_append_all ip _ hipdot, List.takeWhile_cons_of_neg (by simp),
        List.append_nil]
    have hdw : (ip ++ '.' :: fp).dropWhile (fun c => decide (c ≠ '.')) = '.' :: fp := by
      rw [dropWhile_append_all ip _ hipdot, List.dropWhile_cons_of_neg (by simp)]
    show splitDecimal ((if sign then ['-'] else []) ++ ip ++ '.' :: fp) an = ⟨ip, fp, sign && an⟩
    cases sign with
    | true =>
      show splitDecimal ('-' :: (ip ++ '.' :: fp)) an = ⟨ip, fp, true && an⟩
      have hchar : jsCharAt ('-' :: (ip ++ '.' :: fp)) 0 = some '-' := by
        rw [jsCharAt_zero]; rfl
      simp only [splitDecimal, if_pos hchar, List.drop_one, List.tail_cons]
      rw [SplitDecimalResult.mk.injEq]
      exact ⟨htw, by rw [hdw]; rfl, by simp⟩
    | false =>
      show splitDecimal (ip ++ '.' :: fp) an = ⟨ip, fp, false && an⟩
      have hchar : jsCharAt (ip ++ '.' :: fp) 0 ≠ some '-' := by
        rw [jsCharAt_zero]
        cases hip2 : ip with
        | nil => simp
        | cons d ds =>
          intro hcon
          exact digit_ne_dash (hip d (by rw [hip2]; simp)) (by simpa using hcon)
      simp only [splitDecimal, if_neg hchar]
      rw [SplitDecimalResult.mk.injEq]
      exact ⟨htw, by rw [hdw]; rfl, by simp⟩

theorem ite_prepend_nonempty (l m : Str) : (if l ≠ [] then l ++ m else m) = l ++ m := by
  by_cases h : l = []
  · rw [if_neg (by simpa using h), h, List.nil_append]
  · rw [if_pos h]

theorem ite_append_nonempty (l m : Str) : (if m ≠ [] then l ++ m else l) = l ++ m := by
  by_cases h : m = []
  · rw [if_neg (by simpa using h), h, List.append_nil]
  · rw [if_pos h]

theorem take_one_ne_dash (X : Str) (h : X.head? ≠ some '-') : X.take 1 ≠ ['-'] := by
  cases X with
  | nil => simp
  | cons y ys =>
    intro hcon
    have hy : y = '-' := by simpa using hcon
    exact h (by simp [hy])

theorem twoDashesSameLine_no_dash (s : Str) (h : ∀ x ∈ s, x ≠ '-') :
    ∀ b, twoDashesSameLine s b = false := by
  induction s with
  | nil => intro b; rfl
  | cons c rest ih =>
    intro b
    have hrest : ∀ x ∈ rest, x ≠ '-' := fun x hx => h x (List.mem_cons_of_mem _ hx)
    simp only [twoDashesSameLine]
    by_cases hl : isLineTerminator c = true
    · rw [if_pos hl]
      exact ih hrest false
    · rw [if_neg hl, if_neg (h c (by simp))]
      exact ih hrest b

theorem handleNegation_single_dash (core : Str) (h : ∀ x ∈ core, x ≠ '-') :
    handleNegation ('-' :: core) (some true) = '-' :: core := by
  have hcont : ('-' :: core).contains '-' = true := by simp
  have hremove : twoDashesSameLine ('-' :: core) false = false := by
    simp only [twoDashesSameLine, if_neg (by decide : ¬(isLineTerminator '-' = true)),
      if_pos rfl, Bool.false_eq_true, if_false]
    exact twoDashesSameLine_no_dash core h true
  have hfilter : ('-' :: core).filter (fun c => c ≠ '-') = core := by
    rw [List.filter_cons]
    rw [if_neg (by simp)]
    exact List.filter_eq_self.mpr (fun x hx => by simpa using h x hx)
  simp only [handleNegation, hcont, hremove, hfilter]
  rw [if_pos (by simp)]

theorem rfNumericCore_signed (core : Str) (toS toE : Int) (props : NumericProps) (sign : Bool)
    (hdash : ∀ x ∈ core, x ≠ '-')
    (hneg : sign = true → props.allowNegative = some true)
    (hdm : (getSeparators props).decimalSeparator ≠ '-') :
    rfNumericCore ⟨core, toS, toE, sign⟩ props =
      (if sign then ['-'] else []) ++
        collapseFirstSep (getSeparators props).decimalSeparator
          (core.filter (fun c => c.isDigit || c == (getSeparators props).decimalSeparator)) := by
  have hhd : core.head? ≠ some '-' := head?_ne_dash_of_no_dash core hdash
  cases sign with
  | false =>
    simp only [rfNumericCore, Bool.false_eq_true, if_false]
    rw [handleNegation_no_dash _ _ hdash, numberRegexExtract_no_leading_dash _ _ hhd]
    simp
  | true =>
    simp only [rfNumericCore, if_true]
    rw [hneg rfl, handleNegation_single_dash core hdash]
    rw [show numberRegexExtract ('-' :: core) (getSeparators props).decimalSeparator =
        '-' :: core.filter
          (fun c => c.isDigit || c == (getSeparators props).decimalSeparator) from by
      rw [numberRegexExtract, if_pos (show ('-' :: core).head? = some '-' from rfl)]
      simp]
    show collapseFirstSepGo (getSeparators props).decimalSeparator false ('-' :: _) = _
    simp only [collapseFirstSepGo,
      if_neg (show ¬('-' = (getSeparators props).decimalSeparator) from fun hc => hdm hc.symm)]
    simp [collapseFirstSep]

theorem rfSepCanonValue_skip_char (value : Str) (meta : ChangeMeta) (props : NumericProps)
    (h : isAllowedSepChar (getSeparators props).allowedDecimalSeparators
      (jsCharAt value meta.toR.start) = false) :
    rfSepCanonValue value meta props = value := by
  simp only [rfSepCanonValue]
  rw [if_neg (fun hc => by rw [h] at hc; exact Bool.noConfusion hc.2)]

theorem rfStrip_decorated (props : NumericProps) (sign : Bool) (core : Str) (meta : ChangeMeta)
    (hlast : meta.lastValue = [])
    (hpreh : props.prefixStr.head? ≠ some '-')
    (hsufh : props.suffixStr.head? ≠ some '-')
    (hrest : (props.prefixStr ++ core ++ props.suffixStr).head? ≠ some '-') :
    rfStrip ((if sign then ['-'] else []) ++ props.prefixStr ++ core ++ props.suffixStr)
        meta props =
      ⟨core, meta.toR.start - (if sign then 1 else 0),
        meta.toR.stop - (if sign then 1 else 0) - props.prefixStr.length, sign⟩ := by
  have hstrip : stripNegation props.prefixStr props.suffixStr
      ((if sign then ['-'] else []) ++ props.prefixStr ++ core ++ props.suffixStr)
      meta.toR.start meta.toR.stop =
      ⟨props.prefixStr ++ core ++ props.suffixStr,
        meta.toR.start - (if sign then 1 else 0),
        meta.toR.stop - (if sign then 1 else 0), sign⟩ := by
    cases sign with
    | false =>
      simp only [Bool.false_eq_true, if_false, List.nil_append]
      rw [stripNegation_no_leading_dash _ _ _ _ _ hrest]
      simp
    | true =>
      have htk : ('-' :: (props.prefixStr ++ (core ++ props.suffixStr))).take 2 ≠
          ['-', '-'] := by
        intro hc
        rw [List.take_succ_cons] at hc
        have h1 : (props.prefixStr ++ (core ++ props.suffixStr)).take 1 = ['-'] := by
          simpa using hc
        exact take_one_ne_dash _ (by simpa [List.append_assoc] using hrest) h1
      have hsc : ¬(props.suffixStr.head? = some '-' ∧
          ('-' :: (props.prefixStr ++ (core ++ props.suffixStr))).length =
            props.suffixStr.length) := fun hc => hsufh hc.1
      simp only [if_true]
      rw [show ((['-'] : Str) ++ props.prefixStr ++ core ++ props.suffixStr) =
        '-' :: (props.prefixStr ++ (core ++ props.suffixStr)) from by simp]
      simp only [stripNegation]
      rw [if_neg hpreh, if_neg htk, if_neg hsc,
        if_pos (show ('-' :: (props.prefixStr ++ (core ++ props.suffixStr))).head? = some '-'
          from rfl)]
      simp [List.append_assoc]
  simp only [rfStrip, hlast]
  rw [hstrip, stripNegation_nil]
  simp only []
  rw [if_neg (by simp)]
  have hisp : props.prefixStr.isPrefixOf (props.prefixStr ++ core ++ props.suffixStr) = true := by
    rw [List.isPrefixOf_iff_prefix, List.append_assoc]
    exact List.prefix_append _ _
  rw [if_pos hisp]
  rw [show props.prefixStr ++ core ++ props.suffixStr =
    props.prefixStr ++ (core ++ props.suffixStr) from by simp]
  rw [jsSubstringFrom_nat, List.drop_left]
  have hiss : props.suffixStr.isSuffixOf (core ++ props.suffixStr) = true := by
    rw [List.isSuffixOf_iff_suffix]
    exact List.suffix_append _ _
  rw [if_pos hiss]
  rw [show ((core ++ props.suffixStr).length : Int) - (props.suffixStr.length : Int) =
    ((core.length : Nat) : Int) from by rw [List.length_append]; push_cast; ring]
  rw [jsSubstring_take, List.take_left]

theorem numericFormatFn_canonical (props : NumericProps) (sign : Bool) (ip : Str)
    (dp : Option Str)
    (hip : ∀ x ∈ ip, x.isDigit = true)
    (hcore : ip ≠ [])
    (hneg : sign = true → props.allowNegative = some true)
    (hscale : ∀ n, props.decimalScale = some n →
      limitToScale (dp.getD []) n props.fixedDecimalScale = dp.getD [])
    (hhds : numericHasDecimalSeparator ((if sign then ['-'] else []) ++ ip ++ dotPart dp)
      props = dp.isSome) :
    numericFormatFn ((if sign then ['-'] else []) ++ ip ++ dotPart dp) props =
      (if sign then ['-'] else []) ++ props.prefixStr ++
        ((if (getSeparators props).thousandSeparator = [] then ip
          else applyThousandSeparator ip (getSeparators props).thousandSeparator
            (props.thousandsGroupStyle.getD ThousandsGroupStyle.thousand)) ++
          (if dp.isSome = true then [(getSeparators props).decimalSeparator] else []) ++
          dp.getD []) ++ props.suffixStr := by
  have hvne : ¬((if sign then ['-'] else []) ++ ip ++ dotPart dp = [] ∨
      (if sign then ['-'] else []) ++ ip ++ dotPart dp = ['-']) := by
    cases hv2 : ip with
    | nil => exact absurd hv2 hcore
    | cons d ds =>
      have hd : d.isDigit = true := hip d (by rw [hv2]; simp)
      have hdne : d ≠ '-' := digit_ne_dash hd
      cases dp <;> cases sign <;> simp_all [dotPart]
  simp only [numericFormatFn]
  rw [if_neg hvne]
  rw [splitDecimal_canonical sign ip dp (props.allowNegative.getD true) hip (Or.inl hcore)]
  rw [hhds]
  simp only []
  have hafter : (match props.decimalScale with
      | some n => limitToScale (dp.getD []) n props.fixedDecimalScale
      | none => dp.getD []) = dp.getD [] := by
    cases hps : props.decimalScale with
    | none => rfl
    | some n => exact hscale n hps
  rw [hafter]
  rw [show (if (getSeparators props).thousandSeparator ≠ [] then
      applyThousandSeparator ip (getSeparators props).thousandSeparator
        (props.thousandsGroupStyle.getD ThousandsGroupStyle.thousand)
      else ip) =
      (if (getSeparators props).thousandSeparator = [] then ip
      else applyThousandSeparator ip (getSeparators props).thousandSeparator
        (props.thousandsGroupStyle.getD ThousandsGroupStyle.thousand)) from by
    by_cases hts : (getSeparators props).thousandSeparator = []
    · rw [if_neg (by simp [hts]), if_pos hts]
    · rw [if_pos hts, if_neg hts]]
  rw [ite_prepend_nonempty props.prefixStr _]
  rw [ite_append_nonempty _ props.suffixStr]
  rw [show (sign && props.allowNegative.getD true) = sign from by
    cases sign with
    | false => simp
    | true => simp [hneg rfl]]
  cases sign <;> simp [List.append_assoc]

/-- C1 (counterexample): with decimalScale 2 and fixedDecimalScale set, the
canonical value "1" — no decimal digits, so the scale truncates nothing — is
formatted to "1.00", and removeFormatting hands back "1.00", not "1": the
fixed-scale zero padding alone breaks the claimed round trip. -/
theorem c1_numeric_round_trip_counterexample :
    numericRemoveFormatting
        (numericFormatFn ['1'] { decimalScale := some 2, fixedDecimalScale := true })
        (getDefaultChangeMeta
          (numericFormatFn ['1'] { decimalScale := some 2, fixedDecimalScale := true }))
        { decimalScale := some 2, fixedDecimalScale := true } ≠ ['1'] := by decide

/-- C1 (amended): the round trip removeFormatting (format v) with the default
change metadata returns the canonical value v = sign ++ digits ++ optional
point-and-digits exactly when, beyond the scale not changing the decimal
section, the configuration is decoration-clean: negation is explicitly allowed
when v is negative, prefix, suffix and thousand separator hold no negation
sign, the thousand separator holds neither digits nor the decimal separator,
the decimal separator is a non-digit other than the sign, the allowed decimal
separators hold no digits, and the formatted value's decimal-separator
presence mirrors v's (ruling out fixed-scale padding and scale-0 values with a
point, see the counterexample). -/
theorem c1_numeric_round_trip_amended (props : NumericProps) (sign : Bool) (ip : Str)
    (dp : Option Str) (v : Str)
    (hv : v = (if sign then ['-'] else []) ++ ip ++ dotPart dp)
    (hip : ∀ x ∈ ip, x.isDigit = true)
    (hfp : ∀ x ∈ dp.getD [], x.isDigit = true)
    (hcore : ip ≠ [])
    (hneg : sign = true → props.allowNegative = some true)
    (hpre : ∀ x ∈ props.prefixStr, x ≠ '-')
    (hsuf : ∀ x ∈ props.suffixStr, x ≠ '-')
    (ht : ∀ x ∈ (getSeparators props).thousandSeparator,
      x.isDigit = false ∧ x ≠ (getSeparators props).decimalSeparator ∧ x ≠ '-')
    (hd1 : (getSeparators props).decimalSeparator.isDigit = false)
    (hd2 : (getSeparators props).decimalSeparator ≠ '-')
    (hal : ∀ x ∈ (getSeparators props).allowedDecimalSeparators, x.isDigit = false)
    (hscale : ∀ n, props.decimalScale = some n →
      limitToScale (dp.getD []) n props.fixedDecimalScale = dp.getD [])
    (hhds : numericHasDecimalSeparator v props = dp.isSome) :
    numericRemoveFormatting (numericFormatFn v props)
      (getDefaultChangeMeta (numericFormatFn v props)) props = v := by
  set G : Str := (if (getSeparators props).thousandSeparator = [] then ip
    else applyThousandSeparator ip (getSeparators props).thousandSeparator
      (props.thousandsGroupStyle.getD ThousandsGroupStyle.thousand)) with hGdef
  set sepL : Str := (if dp.isSome = true then [(getSeparators props).decimalSeparator] else [])
    with hsepLdef
  have hGfilter : G.filter
      (fun c => c.isDigit || c == (getSeparators props).decimalSeparator) = ip := by
    rw [hGdef]
    by_cases hts : (getSeparators props).thousandSeparator = []
    · rw [if_pos hts]
      exact List.filter_eq_self.mpr (fun x hx => by simp [hip x hx])
    · rw [if_neg hts]
      refine applyThousandSeparator_filter ip _ _ ?_ ?_
      · intro x hx
        have h2 := ht x hx
        simp [h2.1, h2.2.1]
      · intro x hx
        simp [hip x hx]
  have hGmem : ∀ x ∈ G, x ∈ ip ∨ x ∈ (getSeparators props).thousandSeparator := by
    intro x hx
    rw [hGdef] at hx
    by_cases hts : (getSeparators props).thousandSeparator = []
    · rw [if_pos hts] at hx
      exact Or.inl hx
    · rw [if_neg hts] at hx
      exact applyThousandSeparator_mem _ _ _ x hx
  have hGdash : ∀ x ∈ G, x ≠ '-' := by
    intro x hx
    rcases hGmem x hx with h | h
    · exact digit_ne_dash (hip x h)
    · exact (ht x h).2.2
  have hGlen : 1 ≤ G.length := by
    have h1 : ip.length ≤ G.length := by
      conv_lhs => rw [← hGfilter]
      exact List.length_filter_le _ _
    have h3 : 0 < ip.length := List.length_pos.mpr hcore
    omega
  have hsepLdash : ∀ x ∈ sepL, x ≠ '-' := by
    intro x hx
    rw [hsepLdef] at hx
    by_cases hdp : dp.isSome = true
    · rw [if_pos hdp] at hx
      have hxe : x = (getSeparators props).decimalSeparator := by simpa using hx
      rw [hxe]
      exact hd2
    · rw [if_neg hdp] at hx
      simp at hx
  have hsepLkeep : ∀ x ∈ sepL,
      (x.isDigit || x == (getSeparators props).decimalSeparator) = true := by
    intro x hx
    rw [hsepLdef] at hx
    by_cases hdp : dp.isSome = true
    · rw [if_pos hdp] at hx
      have hxe : x = (getSeparators props).decimalSeparator := by simpa using hx
      simp [hxe]
    · rw [if_neg hdp] at hx
      simp at hx
  have hF : numericFormatFn v props =
      (if sign then ['-'] else []) ++ props.prefixStr ++ ((G ++ sepL) ++ dp.getD []) ++
        props.suffixStr := by
    rw [hv, numericFormatFn_canonical props sign ip dp hip hcore hneg hscale (hv ▸ hhds),
      hGdef, hsepLdef]
  rw [hF]
  set F : Str := (if sign then ['-'] else []) ++ props.prefixStr ++ ((G ++ sepL) ++ dp.getD []) ++
    props.suffixStr with hFdef
  have hFgt : props.prefixStr.length < F.length ∧ props.suffixStr.length < F.length := by
    rw [hFdef]
    simp only [List.length_append]
    omega
  have hecho : ¬(charIsNumber F = true ∧ (F = props.prefixStr ∨ F = props.suffixStr) ∧
      (getDefaultChangeMeta F).lastValue = []) := by
    rintro ⟨-, hcase, -⟩
    rcases hcase with hcase | hcase
    · have h2 := congrArg List.length hcase
      omega
    · have h2 := congrArg List.length hcase
      omega
  have hcanon : rfSepCanonValue F (getDefaultChangeMeta F) props = F := by
    by_cases hF1 : F.length = 1
    · apply rfSepCanonValue_skip_char
      have hcomp := hF1
      rw [hFdef] at hcomp
      simp only [List.length_append] at hcomp
      cases sign with
      | true =>
        exfalso
        simp at hcomp
        omega
      | false =>
        simp only [Bool.false_eq_true, if_false, List.length_nil, Nat.zero_add] at hcomp
        have hprenil : props.prefixStr = [] := List.length_eq_zero.mp (by omega)
        have hsufnil : props.suffixStr = [] := List.length_eq_zero.mp (by omega)
        have hsepnil : sepL = [] := List.length_eq_zero.mp (by omega)
        have hdpGnil : dp.getD [] = ([] : Str) := List.length_eq_zero.mp (by omega)
        have hG1 : G.length = 1 := by omega
        obtain ⟨x, hx⟩ := List.length_eq_one.mp hG1
        have hxip : x ∈ ip := by
          rcases hGmem x (by rw [hx]; simp) with h | h
          · exact h
          · exfalso
            have hpx : (x.isDigit || x == (getSeparators props).decimalSeparator) = false := by
              have h2 := ht x h
              simp [h2.1, h2.2.1]
            have hipe : ip = [] := by
              rw [← hGfilter, hx]
              simp [List.filter_cons, hpx]
            exact hcore hipe
        show isAllowedSepChar (getSeparators props).allowedDecimalSeparators
          (jsCharAt F 0) = false
        rw [hFdef, hprenil, hsufnil, hsepnil, hdpGnil, hx]
        simp only [Bool.false_eq_true, if_false, List.nil_append, List.append_nil]
        rw [jsCharAt_zero]
        show (getSeparators props).allowedDecimalSeparators.contains x = false
        cases hcc : (getSeparators props).allowedDecimalSeparators.contains x with
        | false => rfl
        | true =>
          exfalso
          have hel : (getSeparators props).allowedDecimalSeparators.elem x = true := hcc
          have hxmem : x ∈ (getSeparators props).allowedDecimalSeparators :=
            List.mem_of_elem_eq_true hel
          have hnd := hal x hxmem
          rw [hip x hxip] at hnd
          exact Bool.noConfusion hnd
    · apply rfSepCanonValue_skip
      intro hcon
      apply hF1
      have h3 := hcon
      simp only [getDefaultChangeMeta, Int.sub_zero] at h3
      exact_mod_cast h3
  have hpreh : props.prefixStr.head? ≠ some '-' := head?_ne_dash_of_no_dash _ hpre
  have hsufh : props.suffixStr.head? ≠ some '-' := head?_ne_dash_of_no_dash _ hsuf
  have hCOREdash : ∀ x ∈ (G ++ sepL) ++ dp.getD [], x ≠ '-' := by
    intro x hx
    rcases List.mem_append.mp hx with hx | hx
    · rcases List.mem_append.mp hx with hx | hx
      · exact hGdash x hx
      · exact hsepLdash x hx
    · exact digit_ne_dash (hfp x hx)
  have hrest : (props.prefixStr ++ ((G ++ sepL) ++ dp.getD []) ++ props.suffixStr).head? ≠
      some '-' := by
    apply head?_ne_dash_of_no_dash
    intro x hx
    rcases List.mem_append.mp hx with hx | hx
    · rcases List.mem_append.mp hx with hx | hx
      · exact hpre x hx
      · exact hCOREdash x hx
    · exact hsuf x hx
  have hnotbefore : ¬(jsCharAt F (getDefaultChangeMeta F).toR.stop =
      some (getSeparators props).decimalSeparator) := by
    show ¬(jsCharAt F (F.length : Int) = some _)
    rw [jsCharAt_length]
    simp
  have hstrip : rfStrip F (getDefaultChangeMeta F) props =
      ⟨(G ++ sepL) ++ dp.getD [],
        (getDefaultChangeMeta F).toR.start - (if sign then 1 else 0),
        (getDefaultChangeMeta F).toR.stop - (if sign then 1 else 0) - props.prefixStr.length,
        sign⟩ := by
    rw [hFdef]
    exact rfStrip_decorated props sign _ _ rfl hpreh hsufh hrest
  have hfiltereq : ((G ++ sepL) ++ dp.getD []).filter
      (fun c => c.isDigit || c == (getSeparators props).decimalSeparator) =
      (ip ++ sepL) ++ dp.getD [] := by
    rw [List.filter_append, List.filter_append, hGfilter,
      List.filter_eq_self.mpr hsepLkeep,
      List.filter_eq_self.mpr (fun x hx => by simp [hfp x hx])]
  have hcollapse : collapseFirstSep (getSeparators props).decimalSeparator
      ((ip ++ sepL) ++ dp.getD []) = ip ++ dotPart dp := by
    have hipd : (getSeparators props).decimalSeparator ∉ ip :=
      fun hm => digit_ne_nondigit (hip _ hm) hd1 rfl
    rw [hsepLdef]
    cases dp with
    | none =>
      simp only [Option.isSome_none, Bool.false_eq_true, if_false, Option.getD_none,
        List.append_nil, dotPart]
      exact collapseFirstSep_not_mem _ ip hipd
    | some fp =>
      have hfpd : (getSeparators props).decimalSeparator ∉ fp :=
        fun hm => digit_ne_nondigit (hfp _ hm) hd1 rfl
      simp only [Option.isSome_some, if_true, Option.getD_some, dotPart]
      rw [show (ip ++ [(getSeparators props).decimalSeparator]) ++ fp =
        ip ++ (getSeparators props).decimalSeparator :: fp from by simp]
      exact collapseFirstSep_single _ ip fp hipd hfpd
  simp only [numericRemoveFormatting]
  rw [if_neg hecho, hcanon, hstrip]
  rw [rfNumericCore_signed ((G ++ sepL) ++ dp.getD []) _ _ props sign hCOREdash hneg hd2]
  rw [hfiltereq, hcollapse]
  rw [if_neg (by rintro ⟨-, -, hcon, -⟩; exact hnotbefore hcon)]
  rw [hv]
  simp [List.append_assoc]

theorem c1_numeric_round_trip_witness :
    numericRemoveFormatting
        (numericFormatFn ['-', '1', '2', '3', '4', '5', '.', '6', '7'] c1props)
        (getDefaultChangeMeta
          (numericFormatFn ['-', '1', '2', '3', '4', '5', '.', '6', '7'] c1props))
        c1props = ['-', '1', '2', '3', '4', '5', '.', '6', '7'] :=
  c1_numeric_round_trip_amended c1props true ['1', '2', '3', '4', '5'] (some ['6', '7'])
    ['-', '1', '2', '3', '4', '5', '.', '6', '7']
    (by decide) (by decide) (by decide) (by decide) (fun _ => rfl)
    (by decide) (by decide) (by decide) (by decide) (by decide) (by decide)
    (by
      intro n hn
      have h2 : some 2 = some n := hn
      injection h2 with h3
      subst h3
      decide)
    (by decide)

end SolidNumberFormat
